import Mathlib

/-!
# Verification of the Memoria hybrid memory subsystem

A shallow embedding of the memory subsystem of the Memoria repository:
`memory/vector_index.py` (class `VectorIndex`), the stores
`memory/store/episodic_store.py` / `memory/store/semantic_store.py`
(SQLite semantics modelled as in-memory tables), the gating policy
`memory/policy/default_policy.py` (class `DefaultPolicy`) and the
coordinator `memory/Manager.py` (class `MemoryManager`).

Modelling conventions:
* Python `str` is modelled as `List Char` (a sequence of Unicode code
  points, matching Python's notion of string length and indexing).
* Python `dict` is modelled as an association list with unique keys:
  assignment replaces in place, `del` fails (`KeyError`) when the key is
  absent, `get` returns `Option`.
* Embedding vectors are modelled over `ℚ` with exact arithmetic.  The
  source normalizes vectors with float `sqrt` and ranks candidates by
  inner product of the normalized vectors; the model stores the vector
  passed to `add` unchanged and ranks by the mathematically equal cosine
  comparison, computed exactly on squares (`x ↦ x·|x|` is strictly
  monotone, so `a/√x ≥ b/√y ↔ a·|a|·y ≥ b·|b|·x` for `x, y > 0`).
* Exceptions (`KeyError` from `del`, `ValueError`/`IndexError` from
  `int(parts[2])` / `parts[2]`) are modelled with `Except`.
* External collaborators (the embedding endpoint, the durable SQLite
  backend's possible I/O failure) are passed in as explicit outcome
  arguments where a claim is about the reaction to them.
-/

set_option linter.unusedVariables false
set_option maxRecDepth 100000
set_option maxHeartbeats 2000000

namespace Memoria

/-- Python `str` as a list of code points. -/
abbrev Str := List Char

/-- Errors `PyErr`: the runtime exceptions the vector index can raise
(`KeyError` from `del` on a missing key, `ValueError`/`IndexError`
from `int(parts[2])` / `parts[2]` in `_parse_key`). -/
inductive PyErr where
  | keyError
  | valueError
  deriving DecidableEq, Repr

/-- Failure of the external embedding collaborator
(`DefaultProcessor.embed`: API error or timeout). -/
inductive EmbErr where
  | fail
  deriving DecidableEq, Repr

/-- Failure of the durable storage backend (SQLite I/O or transaction
error surfaced by `aiosqlite`). -/
inductive StoreErr where
  | ioError
  deriving DecidableEq, Repr

instance {ε α : Type} [DecidableEq ε] [DecidableEq α] : DecidableEq (Except ε α) :=
  fun a b =>
    match a, b with
    | .ok x, .ok y =>
      match decEq x y with
      | isTrue h => isTrue (h ▸ rfl)
      | isFalse h => isFalse (fun he => h (Except.ok.inj he))
    | .error x, .error y =>
      match decEq x y with
      | isTrue h => isTrue (h ▸ rfl)
      | isFalse h => isFalse (fun he => h (Except.error.inj he))
    | .ok _, .error _ => isFalse (fun he => Except.noConfusion he)
    | .error _, .ok _ => isFalse (fun he => Except.noConfusion he)

/-! ## Association lists with Python `dict` semantics -/

/-- Python `d.get(k)`: value of the first (unique) matching key. -/
def aget {α β : Type} [DecidableEq α] : List (α × β) → α → Option β
  | [], _ => none
  | (a, b) :: t, k => if a = k then some b else aget t k

/-- Python `d[k] = v`: replace in place if the key is present, else
append (Python dicts preserve insertion order). -/
def aset {α β : Type} [DecidableEq α] : List (α × β) → α → β → List (α × β)
  | [], k, v => [(k, v)]
  | (a, b) :: t, k, v => if a = k then (k, v) :: t else (a, b) :: aset t k v

/-- Python `del d[k]`: remove the entry, or fail (`KeyError`) when the
key is absent. -/
def adel {α β : Type} [DecidableEq α] : List (α × β) → α → Option (List (α × β))
  | [], _ => none
  | (a, b) :: t, k => if a = k then some t else (adel t k).map (fun t2 => (a, b) :: t2)

/-! ## Strings: startswith, split on ":", int rendering and parsing -/

/-- Python `s.startswith(p)` on code-point lists. -/
def startswithL : Str → Str → Bool
  | [], _ => true
  | _ :: _, [] => false
  | p :: ps, c :: cs => p = c && startswithL ps cs

/-- Predicate `':' ∉ s`: the string contains no key delimiter. -/
def colonFree (s : Str) : Prop := (':' : Char) ∉ s

instance (s : Str) : Decidable (colonFree s) := by
  unfold colonFree
  infer_instance

/-- Python `s.split(":")`: always returns at least one part; adjacent
delimiters yield empty parts. -/
def splitC : Str → List Str
  | [] => [[]]
  | c :: cs =>
    if c = ':' then [] :: splitC cs
    else
      match splitC cs with
      | [] => [[c]]
      | g :: gs => (c :: g) :: gs

/-- Inverse of `splitC`: rejoin the parts with `':'`. -/
def joinC : List Str → Str
  | [] => []
  | [a] => a
  | a :: rest => a ++ ':' :: joinC rest

/-- Decimal digit character for `d < 10` (code 48 + d, never `':'`,
which is code 58). -/
def digitC (d : Nat) : Char := Char.ofNat (48 + d)

/-- Fuel-driven digit accumulator (structural recursion so that the
kernel can evaluate keys; the fuel `n + 1` always suffices since
`n / 10 < n` for `n ≥ 10`). -/
def natToCharsAux : Nat → Nat → List Char → List Char
  | 0, _, acc => acc
  | fuel + 1, n, acc =>
    if n < 10 then digitC n :: acc
    else natToCharsAux fuel (n / 10) (digitC (n % 10) :: acc)

/-- Decimal rendering of a natural number, most significant digit
first (as in Python's `str(n)` / f-string interpolation). -/
def natToChars (n : Nat) : List Char := natToCharsAux (n + 1) n []

/-- Numeric value of a digit character. -/
def digVal (c : Char) : Nat := c.toNat - 48

/-- Value of a digit string read left to right. -/
def charsVal (l : List Char) : Nat := l.foldl (fun a c => a * 10 + digVal c) 0

/-- Python `int(s)` on an unsigned string: all characters must be
digits and the string must be nonempty.  (Python is additionally
lenient about surrounding whitespace, `+`, `_` separators and Unicode
digits; none of those occur in keys produced by `_make_key`.) -/
def charsToNat? (l : List Char) : Option Nat :=
  if l ≠ [] ∧ l.all Char.isDigit then some (charsVal l) else none

/-- Python `str(i)` for an `int`. -/
def intToStr (i : Int) : Str :=
  if i < 0 then '-' :: natToChars i.natAbs else natToChars i.toNat

/-- Python `int(s)` including a leading minus sign; `none` models the
`ValueError` raised on a non-numeric string. -/
def charsToInt? : Str → Option Int
  | [] => none
  | c :: rest =>
    if c = '-' then (charsToNat? rest).map (fun n => -(n : Int))
    else (charsToNat? (c :: rest)).map (fun n => (n : Int))

/-- Python `s.strip()`: drop whitespace from both ends. -/
def trimL (l : Str) : Str :=
  ((l.dropWhile Char.isWhitespace).reverse.dropWhile Char.isWhitespace).reverse

/-- Python `s.lower()` (ASCII case folding; the stop-list entries are
ASCII or Chinese, for which this agrees with Python). -/
def toLowerL (l : Str) : Str := l.map Char.toLower

/-- SQL `content LIKE '%q%'`: `q` occurs contiguously in `hay`.
(`%`/`_` wildcards inside `q` itself are not modelled; no claim
depends on them.) -/
def containsSub (hay q : Str) : Bool :=
  match hay with
  | [] => startswithL q []
  | _ :: t => startswithL q hay || containsSub t q

/-! ## Exact rational vector arithmetic

`faiss.normalize_L2` scales a vector to unit L2 norm and
`IndexFlatIP.search` ranks stored vectors by inner product, so a query
`q` ranks a stored raw vector `v` by `⟨q,v⟩ / (‖q‖·‖v‖)` — cosine
similarity of the raw vectors.  The model keeps the raw vectors and
compares cosines exactly: for `x = ‖a‖², y = ‖b‖² > 0`,
`⟨q,a⟩/√x ≥ ⟨q,b⟩/√y ↔ ⟨q,a⟩·|⟨q,a⟩|·y ≥ ⟨q,b⟩·|⟨q,b⟩|·x`. -/

/-- Inner product (missing coordinates count as 0, as in numpy only
when shapes match; all vectors of one index share the dimension). -/
def dotL (a b : List ℚ) : ℚ := ((List.zipWith (fun x y => x * y) a b)).sum

/-- Squared L2 norm. -/
def sumsq (v : List ℚ) : ℚ := dotL v v

/-- Sign-preserving square: strictly monotone on `ℚ`. -/
def sgnsq (x : ℚ) : ℚ := x * |x|

/-- Comparison `simGe q a b`: stored vector `a` is at least as cosine-similar to
the query `q` as stored vector `b` is. -/
def simGe (q a b : List ℚ) : Bool :=
  sgnsq (dotL q b) * sumsq a ≤ sgnsq (dotL q a) * sumsq b

/-- Exact rational square root where one exists: `√(n/d)` computed on
numerator and denominator.  Exact precisely when both are perfect
squares; used to model the float normalization of `faiss.normalize_L2`
on inputs whose norm is representable. -/
def ratSqrt (q : ℚ) : ℚ := ((Int.sqrt q.num : ℤ) : ℚ) / ((Nat.sqrt q.den : ℕ) : ℚ)

/-- Model of `faiss.normalize_L2`: divide every coordinate by the L2 norm.
The C code multiplies by `1/sqrt(‖v‖²)` in place; the caller's buffer
holds this vector afterwards. -/
def normalizeL2 (v : List ℚ) : List ℚ :=
  let n := ratSqrt (sumsq v)
  v.map (fun x => x / n)

/-- Insert into a list sorted by the (total) boolean comparison `ge`,
keeping the order descending. -/
def insertSorted {α : Type} (ge : α → α → Bool) (x : α) : List α → List α
  | [] => [x]
  | y :: t => if ge x y then x :: y :: t else y :: insertSorted ge x t

/-- Sort descending by `ge` (insertion sort; any similarity-descending
order is a faithful model of the exact `IndexFlatIP` top-k scan). -/
def sortByGe {α : Type} (ge : α → α → Bool) (l : List α) : List α :=
  l.foldr (insertSorted ge) []

/-! ## `VectorIndex` (memory/vector_index.py) -/

/-- State of `VectorIndex`:
* `dim` — the embedding dimension (`self.dim`, checked only by faiss
  itself, carried for fidelity);
* `index` — the `faiss.IndexIDMap2(IndexFlatIP(dim))` contents: every
  `add_with_ids` call appends `(faiss_id, vector)` and nothing is ever
  physically removed (logical deletion only);
* `id_to_key` — `self.id_to_key : dict[int, str]`;
* `key_to_id` — `self.key_to_id : dict[str, int]`. -/
structure VectorIndex where
  dim : Nat
  index : List (Int × List ℚ)
  id_to_key : List (Int × Str)
  key_to_id : List (Str × Int)
  deriving DecidableEq, Repr

namespace VectorIndex

/-- Constructor `VectorIndex.__init__`. -/
def init (dim : Nat := 768) : VectorIndex := ⟨dim, [], [], []⟩

/-- Source `VectorIndex._make_key`: `f"{agent_id}:{mem_type}:{mem_id}"`. -/
def _make_key (agent_id : Str) (mem_type : Str) (mem_id : Int) : Str :=
  agent_id ++ ':' :: (mem_type ++ ':' :: intToStr mem_id)

/-- Source `VectorIndex._parse_key`: `parts = key.split(":")`, then
`(parts[0], parts[1], int(parts[2]))`.  `none` models the
`IndexError`/`ValueError` raised when the key does not have the
assumed shape (fewer than three parts, or a non-numeric third part —
possible when an `agent_id` itself contains `':'`). -/
def _parse_key (key : Str) : Option (Str × Str × Int) :=
  match splitC key with
  | p0 :: p1 :: p2 :: _ => (charsToInt? p2).map (fun i => (p0, p1, i))
  | _ => none

/-- Source `VectorIndex.remove_by_key`: if the key is live, delete it from
`key_to_id` and delete its faiss id from `id_to_key`; the vector
itself stays in the faiss storage (logical delete).  The second `del`
raises `KeyError` when `id_to_key` lacks the id (possible once handles
alias). -/
def remove_by_key (vi : VectorIndex) (key : Str) : Except PyErr VectorIndex :=
  match aget vi.key_to_id key with
  | none => .ok vi
  | some faiss_id =>
    match adel vi.key_to_id key, adel vi.id_to_key faiss_id with
    | some kt, some it => .ok { vi with key_to_id := kt, id_to_key := it }
    | _, _ => .error .keyError

/-- Source `VectorIndex.add`: upsert under `_make_key`; a live duplicate key
is first logically removed; the new faiss id is
`len(self.id_to_key)`; the embedding is L2-normalized **in place**
(the caller's buffer — returned as the second component — ends up
normalized) and appended to the faiss storage.  The model stores the
raw vector and ranks by exact cosine, which equals the source's
inner-product-of-normalized ranking. -/
def add (vi : VectorIndex) (agent_id mem_type : Str) (mem_id : Int)
    (embedding : List ℚ) : Except PyErr (VectorIndex × List ℚ) :=
  let key := _make_key agent_id mem_type mem_id
  match (if (aget vi.key_to_id key).isSome then remove_by_key vi key else .ok vi) with
  | .error e => .error e
  | .ok vi1 =>
    let faiss_id : Int := (vi1.id_to_key.length : Int)
    .ok ({ vi1 with
            id_to_key := aset vi1.id_to_key faiss_id key,
            key_to_id := aset vi1.key_to_id key faiss_id,
            index := vi1.index ++ [(faiss_id, embedding)] },
         normalizeL2 embedding)

/-- The scan loop of `VectorIndex.search`: for each candidate faiss id
skip `-1` and logically deleted ids, parse the key (a parse failure
raises and aborts the whole search), keep ids whose key matches the
agent and has type `"semantic"`, and stop at `k` results. -/
def searchLoop (m : List (Int × Str)) (agent_id : Str) (sem : Str) (k : Nat) :
    List Int → List Int → Except PyErr (List Int)
  | [], acc => .ok acc.reverse
  | idx :: rest, acc =>
    if idx = -1 then searchLoop m agent_id sem k rest acc
    else
      match aget m idx with
      | none => searchLoop m agent_id sem k rest acc
      | some key =>
        match _parse_key key with
        | none => .error .valueError
        | some (aid, mtype, mid) =>
          if aid = agent_id ∧ mtype = sem then
            if k ≤ (mid :: acc).length then .ok (mid :: acc).reverse
            else searchLoop m agent_id sem k rest (mid :: acc)
          else searchLoop m agent_id sem k rest acc

/-- The literal `"semantic"`. -/
def semanticT : Str := (r"semantic").toList

/-- The literal `"episodic"`. -/
def episodicT : Str := (r"episodic").toList

/-- Source `VectorIndex.search`: normalize the query (in place — the caller's
buffer is returned as the second component), over-fetch `k*3`
candidates from the faiss structure (exact top-`k*3` by similarity,
padded with `-1` when fewer vectors are stored), then run the filter
loop. -/
def search (vi : VectorIndex) (agent_id : Str) (query_emb : List ℚ) (k : Nat := 5) :
    Except PyErr (List Int) × List ℚ :=
  let n := k * 3
  let ids := ((sortByGe (fun a b => simGe query_emb a.2 b.2) vi.index).map Prod.fst).take n
  let cands := ids ++ List.replicate (n - ids.length) (-1)
  (searchLoop vi.id_to_key agent_id semanticT k cands [], normalizeL2 query_emb)

/-- Source `VectorIndex.remove`: logical delete by `(agent, type, id)`. -/
def remove (vi : VectorIndex) (agent_id mem_type : Str) (mem_id : Int) :
    Except PyErr VectorIndex :=
  remove_by_key vi (_make_key agent_id mem_type mem_id)

/-- The removal loop of `clear_agent` over the snapshot of matching
keys. -/
def clearLoop : List Str → VectorIndex → Except PyErr VectorIndex
  | [], vi => .ok vi
  | key :: rest, vi =>
    match remove_by_key vi key with
    | .ok vi2 => clearLoop rest vi2
    | .error e => .error e

/-- Source `VectorIndex.clear_agent`: logically remove every key starting
with `f"{agent_id}:"`. -/
def clear_agent (vi : VectorIndex) (agent_id : Str) : Except PyErr VectorIndex :=
  let keys_to_remove := (vi.key_to_id.map Prod.fst).filter
    (fun k2 => startswithL (agent_id ++ [':']) k2)
  clearLoop keys_to_remove vi

end VectorIndex

export VectorIndex (semanticT episodicT)

/-- The contribution of one candidate faiss id to the result of the
scan loop of `VectorIndex.search` (assuming no parse error): `none`
when the id is the `-1` padding, logically deleted, or filtered out by
tenant/kind; `some mid` when it resolves to a live matching key. -/
def hitOf (m : List (Int × Str)) (agent_id sem : Str) (idx : Int) : Option Int :=
  if idx = -1 then none
  else
    match aget m idx with
    | none => none
    | some key =>
      match VectorIndex._parse_key key with
      | none => none
      | some (aid, mtype, mid) => if aid = agent_id ∧ mtype = sem then some mid else none

/-! ## Stores (memory/store/episodic_store.py, semantic_store.py)

The stores are thin async wrappers over SQLite; the model keeps each
table as an in-memory list of rows in insertion order with the
`AUTOINCREMENT` id counter.  `ORDER BY timestamp DESC` is modelled as
reverse insertion order (ids and the `CURRENT_TIMESTAMP` column grow
together; sub-second timestamp ties are idealized away).  Every query
carries the `WHERE agent_id = ?` guard of the source. -/

/-- A row of `episodic_memory` (id, agent_id, content, role). -/
structure EpRow where
  id : Nat
  agent : Str
  content : Str
  role : Str
  deriving DecidableEq, Repr

/-- The `episodic_memory` table plus its `AUTOINCREMENT` counter. -/
structure EpState where
  nextId : Nat
  rows : List EpRow
  deriving DecidableEq, Repr

/-- A row of `semantic_memory` (id, agent_id, content, metadata). -/
structure SemRow where
  id : Nat
  agent : Str
  content : Str
  metadata : Str
  deriving DecidableEq, Repr

/-- The `semantic_memory` table plus its `AUTOINCREMENT` counter. -/
structure SemState where
  nextId : Nat
  rows : List SemRow
  deriving DecidableEq, Repr

/-- Fresh tables (`AUTOINCREMENT` starts at 1). -/
def EpState.empty : EpState := ⟨1, []⟩

/-- Fresh semantic table. -/
def SemState.empty : SemState := ⟨1, []⟩

namespace EpisodicStore

/-- Source `EpisodicStore.insert`: INSERT returning `cursor.lastrowid`. -/
def insert (st : EpState) (agent content role : Str) : EpState × Nat :=
  (⟨st.nextId + 1, st.rows ++ [⟨st.nextId, agent, content, role⟩]⟩, st.nextId)

/-- Source `EpisodicStore.list_by_agent_recent`: rows of the agent, newest
first, limited.  (The Manager calls this operation under the name
`list_by_agent`, the name declared abstract in `BaseEpisodicStore`;
the concrete class spells it `list_by_agent_recent`.) -/
def list_by_agent_recent (st : EpState) (agent : Str) (limit : Nat) : List EpRow :=
  ((st.rows.filter (fun r => r.agent = agent)).reverse).take limit

/-- Source `EpisodicStore.search_by_agent`: `LIKE '%query%'` substring scan,
newest first.  (Called `search` at its call site in the Manager.) -/
def search_by_agent (st : EpState) (agent : Str) (query : Str) : List EpRow :=
  (st.rows.filter (fun r => r.agent = agent ∧ containsSub r.content query = true)).reverse

/-- Source `EpisodicStore.update_content`: UPDATE guarded by agent, reporting
whether a row changed. -/
def update_content (st : EpState) (agent : Str) (mem_id : Int) (new_content : Str) :
    EpState × Bool :=
  (⟨st.nextId,
    st.rows.map (fun r =>
      if (r.id : Int) = mem_id ∧ r.agent = agent then { r with content := new_content } else r)⟩,
   st.rows.any (fun r => (r.id : Int) = mem_id ∧ r.agent = agent))

/-- Source `EpisodicStore.delete_by_id`: DELETE guarded by agent, reporting
whether a row was removed. -/
def delete_by_id (st : EpState) (agent : Str) (mem_id : Int) : EpState × Bool :=
  (⟨st.nextId, st.rows.filter (fun r => ¬((r.id : Int) = mem_id ∧ r.agent = agent))⟩,
   st.rows.any (fun r => (r.id : Int) = mem_id ∧ r.agent = agent))

/-- Source `EpisodicStore.clear`: delete every row of the agent, returning
`cur.rowcount`. -/
def clear (st : EpState) (agent : Str) : EpState × Nat :=
  (⟨st.nextId, st.rows.filter (fun r => ¬r.agent = agent)⟩,
   (st.rows.filter (fun r => r.agent = agent)).length)

end EpisodicStore

namespace SemanticStore

/-- Source `SemanticStore.list_by_agent`: rows of the agent, newest first
(`ORDER BY id DESC`), limited. -/
def list_by_agent (st : SemState) (agent : Str) (limit : Nat) : List SemRow :=
  ((st.rows.filter (fun r => r.agent = agent)).reverse).take limit

/-- Source `SemanticStore.get_by_ids`: `[]` for an empty id list, else the
agent's rows whose id is in the list (table order). -/
def get_by_ids (st : SemState) (agent : Str) (ids : List Int) : List SemRow :=
  if ids = [] then []
  else st.rows.filter (fun r => r.agent = agent ∧ (r.id : Int) ∈ ids)

/-- Source `SemanticStore.update_content`: UPDATE of the content column
guarded by agent.  The `embedding` parameter is accepted **and
ignored** — the source comment reads "Embedding is handled by
VectorIndex separately in Manager, but we keep the signature
compatible if needed." -/
def update_content (st : SemState) (agent : Str) (mem_id : Int) (new_content : Str)
    (embedding : Option (List ℚ)) : SemState × Bool :=
  (⟨st.nextId,
    st.rows.map (fun r =>
      if (r.id : Int) = mem_id ∧ r.agent = agent then { r with content := new_content } else r)⟩,
   st.rows.any (fun r => (r.id : Int) = mem_id ∧ r.agent = agent))

/-- Source `SemanticStore.delete_by_id`: DELETE guarded by agent. -/
def delete_by_id (st : SemState) (agent : Str) (mem_id : Int) : SemState × Bool :=
  (⟨st.nextId, st.rows.filter (fun r => ¬((r.id : Int) = mem_id ∧ r.agent = agent))⟩,
   st.rows.any (fun r => (r.id : Int) = mem_id ∧ r.agent = agent))

/-- Modelled from the spec: `SemanticStore.clear` is absent from the
source (the Manager's `clear_all_memories` calls
`self.semantic_store.clear(agent_id)`, but `semantic_store.py` defines
no such method).  Per spec §4.2 the SummaryStore has the same
isolation contract and a `clear` operation; modelled exactly like
`EpisodicStore.clear`: delete every row of the tenant, return the
count. -/
def clear (st : SemState) (agent : Str) : SemState × Nat :=
  (⟨st.nextId, st.rows.filter (fun r => ¬r.agent = agent)⟩,
   (st.rows.filter (fun r => r.agent = agent)).length)

end SemanticStore

/-! ## `DefaultPolicy` (memory/policy/default_policy.py) -/

/-- The event dict handed to `add_event`: `{'content': …, 'role': …}`. -/
structure EpEvent where
  content : Str
  role : Str
  deriving DecidableEq, Repr

/-- The configured low-information stop-list
`{"嗯", "哦", "好的", "hello"}`. -/
def stopWords : List Str :=
  [(r"嗯").toList, (r"哦").toList, (r"好的").toList, (r"hello").toList]

/-- Source `DefaultPolicy.should_store_as_episodic`: reject when the trimmed
content is shorter than 5 code points or its lowercase form is in the
stop-list. -/
def should_store_as_episodic (agent_id : Str) (event : EpEvent) : Bool :=
  let content := trimL event.content
  if content.length < 5 then false
  else if stopWords.contains (toLowerL content) then false
  else true

/-- Source `DefaultPolicy.should_summarize_to_semantic`:
`episodic_count % 10 == 0`. -/
def should_summarize_to_semantic (agent_id : Str) (episodic_count : Int) : Bool :=
  episodic_count % 10 == 0

/-- Source `DefaultPolicy.get_episodic_ttl_days`. -/
def get_episodic_ttl_days (agent_id : Str) : Nat := 7

/-- Source `DefaultPolicy.allow_user_to_edit_memory`. -/
def allow_user_to_edit_memory (agent_id : Str) (mem_type : Str) : Bool := true

/-! ## `MemoryManager` (memory/Manager.py)

The manager owns the two stores and the vector index; the embedding
collaborator (`DefaultProcessor.embed`, an external API call that may
fail or time out) enters as an explicit `Except EmbErr (List ℚ)`
outcome argument, and in `delete_memory` the awaited durable-store
call enters as an `Except StoreErr Bool` outcome argument (the SQLite
backend may raise I/O errors not representable in the pure table
model). -/

/-- The dependency-injected state of a `MemoryManager`. -/
structure ManagerState where
  est : EpState
  sst : SemState
  vi : VectorIndex
  deriving DecidableEq, Repr

/-- An item returned to the caller (a dict tagged `episodic` or
`semantic` in the source). -/
inductive MemItem where
  | episodic (r : EpRow)
  | semantic (r : SemRow)
  deriving DecidableEq, Repr

/-- Errors a hybrid search can surface: an embedding-collaborator
failure, or a `ValueError` escaping `VectorIndex.search`. -/
inductive SearchErr where
  | emb (e : EmbErr)
  | idx (e : PyErr)
  deriving DecidableEq, Repr

/-- Errors a single-item delete can surface. -/
inductive DelErr where
  | store (e : StoreErr)
  | idx (e : PyErr)
  deriving DecidableEq, Repr

/-- Source `MemoryManager.add_event`: gate through
`policy.should_store_as_episodic`; on rejection return `-1` with no
durable write, on admission insert into the episodic store and return
the new id. -/
def add_event (ms : ManagerState) (agent_id : Str) (event : EpEvent) :
    ManagerState × Int :=
  if should_store_as_episodic agent_id event then
    let (est2, i) := EpisodicStore.insert ms.est agent_id event.content event.role
    ({ ms with est := est2 }, (i : Int))
  else (ms, -1)

/-- Source `MemoryManager.list_recent_memories`: episodic then semantic
recents, concatenated. -/
def list_recent_memories (ms : ManagerState) (agent_id : Str) (limit : Nat := 10) :
    List MemItem :=
  (EpisodicStore.list_by_agent_recent ms.est agent_id limit).map MemItem.episodic ++
  (SemanticStore.list_by_agent ms.sst agent_id limit).map MemItem.semantic

/-- Source `MemoryManager.search_memories` (hybrid search): episodic
substring hits, then `embed(query)` — whose outcome is the
`embed_res` argument; an embedding failure propagates, there is no
recovery in the source — then `VectorIndex.search` with `k = 5`, then
`SemanticStore.get_by_ids`; both hit lists concatenated. -/
def search_memories (ms : ManagerState) (agent_id : Str) (query : Str)
    (embed_res : Except EmbErr (List ℚ)) : Except SearchErr (List MemItem) :=
  let episodic_hits := (EpisodicStore.search_by_agent ms.est agent_id query).map MemItem.episodic
  match embed_res with
  | .error e => .error (.emb e)
  | .ok embedding =>
    match (VectorIndex.search ms.vi agent_id embedding 5).1 with
    | .error e => .error (.idx e)
    | .ok semantic_ids =>
      .ok (episodic_hits ++
        (SemanticStore.get_by_ids ms.sst agent_id semantic_ids).map MemItem.semantic)

/-- Source `MemoryManager.update_memory_content`: policy gate, then dispatch
on `mem_type`.  The semantic branch re-embeds the new content
(`embed_res` is that collaborator outcome; failure propagates) and
passes the embedding to `SemanticStore.update_content`; **no vector
index operation occurs anywhere in the function**. -/
def update_memory_content (ms : ManagerState) (agent_id : Str) (mem_id : Int)
    (new_content : Str) (mem_type : Str) (embed_res : Except EmbErr (List ℚ)) :
    Except EmbErr (ManagerState × Bool) :=
  if ¬allow_user_to_edit_memory agent_id mem_type then .ok (ms, false)
  else if mem_type = episodicT then
    let (est2, b) := EpisodicStore.update_content ms.est agent_id mem_id new_content
    .ok ({ ms with est := est2 }, b)
  else if mem_type = semanticT then
    match embed_res with
    | .error e => .error e
    | .ok embedding =>
      let (sst2, b) := SemanticStore.update_content ms.sst agent_id mem_id new_content
        (some embedding)
      .ok ({ ms with sst := sst2 }, b)
  else .ok (ms, false)

/-- Source `MemoryManager.delete_memory`: dispatch on `mem_type`; await the
store's `delete_by_id` (its outcome is the `store_outcome` argument:
an I/O failure raises, otherwise a `bool` reports whether a row was
deleted); only on `True` is `VectorIndex.remove` called.  The first
component of the result is the vector index the manager is left
with. -/
def delete_memory (vi : VectorIndex) (agent_id : Str) (mem_id : Int) (mem_type : Str)
    (store_outcome : Except StoreErr Bool) : VectorIndex × Except DelErr Bool :=
  if mem_type = episodicT then
    match store_outcome with
    | .error e => (vi, .error (.store e))
    | .ok success =>
      if success then
        match VectorIndex.remove vi agent_id episodicT mem_id with
        | .ok vi2 => (vi2, .ok true)
        | .error e => (vi, .error (.idx e))
      else (vi, .ok false)
  else if mem_type = semanticT then
    match store_outcome with
    | .error e => (vi, .error (.store e))
    | .ok success =>
      if success then
        match VectorIndex.remove vi agent_id semanticT mem_id with
        | .ok vi2 => (vi2, .ok true)
        | .error e => (vi, .error (.idx e))
      else (vi, .ok false)
  else (vi, .ok false)

/-- Source `MemoryManager.clear_all_memories`: clear the episodic store, the
semantic store (spec-modelled, see `SemanticStore.clear`), then
`VectorIndex.clear_agent`; returns the total deleted row count. -/
def clear_all_memories (ms : ManagerState) (agent_id : Str) :
    Except PyErr (ManagerState × Nat) :=
  let (est2, count1) := EpisodicStore.clear ms.est agent_id
  let (sst2, count2) := SemanticStore.clear ms.sst agent_id
  match VectorIndex.clear_agent ms.vi agent_id with
  | .error e => .error e
  | .ok vi2 => .ok (⟨est2, sst2, vi2⟩, count1 + count2)

/-! ## Index well-formedness

`WFvi` states that the two dictionaries of a `VectorIndex` are
mutually inverse finite maps.  A fresh index satisfies it and
insertions/removals preserve it **until** a freed faiss id is reused
(the `len(id_to_key)` allocation), which silently overwrites an
`id_to_key` entry and leaves a stale `key_to_id` entry behind; the
claims about isolation and erasure are settled relative to this
invariant. -/

/-- The two maps of the index are mutually inverse, with unique keys
on both sides. -/
def WFvi (vi : VectorIndex) : Prop :=
  (vi.id_to_key.map Prod.fst).Nodup ∧ (vi.key_to_id.map Prod.fst).Nodup ∧
  (∀ p ∈ vi.id_to_key, aget vi.key_to_id p.2 = some p.1) ∧
  (∀ p ∈ vi.key_to_id, aget vi.id_to_key p.2 = some p.1)

instance (vi : VectorIndex) : Decidable (WFvi vi) := by
  unfold WFvi
  infer_instance

/-! ## Concrete fixtures

Extractors and the concrete states used by the per-claim evaluations.
The extractors take a fallback for the (never exercised) error branch;
every evaluation theorem separately asserts that the extracted step in
fact succeeded. -/

/-- Returns `true` iff an `Except` value is `ok`. -/
def isOkE {ε α : Type} : Except ε α → Bool
  | .ok _ => true
  | .error _ => false

/-- Extract the index from a successful `add`, with fallback. -/
def okIdxAdd (fb : VectorIndex) : Except PyErr (VectorIndex × List ℚ) → VectorIndex
  | .ok p => p.1
  | .error _ => fb

/-- Extract the index from a successful `remove`/`clear_agent`, with
fallback. -/
def okIdx (fb : VectorIndex) : Except PyErr VectorIndex → VectorIndex
  | .ok v => v
  | .error _ => fb

/-- Tenant `"t"`. -/
def tT : Str := (r"t").toList

/-- Tenant `"a"`. -/
def aT : Str := (r"a").toList

/-- Tenant `"b"`. -/
def bT : Str := (r"b").toList

/-- The adversarial tenant `"b:semantic:7"`: an opaque string whose
key material re-parses under tenant `"b"`. -/
def bInjT : Str := (r"b:semantic:7").toList

/-- The adversarial tenant `"c:x"`: its keys fail `_parse_key`
(`int("semantic")`). -/
def cInjT : Str := (r"c:x").toList

/-- Role `"user"`. -/
def userR : Str := (r"user").toList

/-- A 1-dimensional test vector. -/
def q1 : List ℚ := [1]

/-- A 1-dimensional vector opposite to `q1` (cosine −1). -/
def qneg : List ℚ := [-1]

/-- C1 step 0: fresh index. -/
def c1v0 : VectorIndex := VectorIndex.init 1

/-- C1 step 1: `add(t, semantic, 1)` — handle 0. -/
def c1v1 : VectorIndex := okIdxAdd c1v0 (VectorIndex.add c1v0 tT semanticT 1 q1)

/-- C1 step 2: `add(t, semantic, 2)` — handle 1. -/
def c1v2 : VectorIndex := okIdxAdd c1v1 (VectorIndex.add c1v1 tT semanticT 2 q1)

/-- C1 step 3: `remove(t, semantic, 1)` — frees handle 0, so
`len(id_to_key)` drops back to 1. -/
def c1v3 : VectorIndex := okIdx c1v2 (VectorIndex.remove c1v2 tT semanticT 1)

/-- C1 step 4: `add(t, semantic, 3)` — allocates `len(id_to_key) = 1`
again, aliasing the still-live handle of `(t, semantic, 2)`. -/
def c1v4 : VectorIndex := okIdxAdd c1v3 (VectorIndex.add c1v3 tT semanticT 3 q1)

/-- C3: the stored (old) embedding of summary 1. -/
def c3vOld : List ℚ := [2]

/-- C3: the freshly computed embedding of the new content. -/
def c3vNew : List ℚ := [3]

/-- C3: semantic table holding summary 1 of tenant `t`. -/
def c3sem0 : SemState := ⟨2, [⟨1, tT, (r"old fact").toList, (r"{}").toList⟩]⟩

/-- C3: vector index holding the old embedding under
`t:semantic:1`. -/
def c3vi0 : VectorIndex :=
  okIdxAdd (VectorIndex.init 1) (VectorIndex.add (VectorIndex.init 1) tT semanticT 1 c3vOld)

/-- C3: the manager state before the update. -/
def c3ms : ManagerState := ⟨EpState.empty, c3sem0, c3vi0⟩

/-- C4 counterexample: index holding one vector inserted for the
adversarial tenant `"b:semantic:7"`. -/
def c4vi : VectorIndex :=
  okIdxAdd (VectorIndex.init 1) (VectorIndex.add (VectorIndex.init 1) bInjT semanticT 9 q1)

/-- C4: the same index after `clear_agent("b")`. -/
def c4viCleared : VectorIndex := okIdx c4vi (VectorIndex.clear_agent c4vi bT)

/-- C4 witness: a well-formed index holding one vector of tenant
`"a"`. -/
def w4vi : VectorIndex :=
  okIdxAdd (VectorIndex.init 1) (VectorIndex.add (VectorIndex.init 1) aT semanticT 1 q1)

/-- C5 counterexample: index holding one vector of the adversarial
tenant `"c:x"`, whose key `"c:x:semantic:9"` fails `_parse_key`. -/
def c5vi : VectorIndex :=
  okIdxAdd (VectorIndex.init 1) (VectorIndex.add (VectorIndex.init 1) cInjT semanticT 9 q1)

/-- C5: the manager state before erasing tenant `"b"`. -/
def c5ms : ManagerState := ⟨EpState.empty, SemState.empty, c5vi⟩

/-- C5: the manager state after `clear_all_memories("b")`. -/
def c5after : ManagerState :=
  match clear_all_memories c5ms bT with
  | .ok p => p.1
  | .error _ => c5ms

/-- C5: some query text. -/
def c5q : Str := (r"cats").toList

/-- C5 witness: episodic table of tenant `"a"`. -/
def w5est : EpState := ⟨2, [⟨1, aT, (r"I love cats").toList, userR⟩]⟩

/-- C5 witness: semantic table of tenant `"a"`. -/
def w5sst : SemState := ⟨2, [⟨1, aT, (r"User loves cats").toList, (r"{}").toList⟩]⟩

/-- C5 witness: well-formed index of tenant `"a"`. -/
def w5vi : VectorIndex :=
  okIdxAdd (VectorIndex.init 1) (VectorIndex.add (VectorIndex.init 1) aT semanticT 1 q1)

/-- C5 witness: the manager state to be erased. -/
def w5ms : ManagerState := ⟨w5est, w5sst, w5vi⟩

/-- Shorthand: upsert for tenant `"t"`, kind `"semantic"`. -/
def addSemT (vi : VectorIndex) (i : Int) (v : List ℚ) : VectorIndex :=
  okIdxAdd vi (VectorIndex.add vi tT semanticT i v)

/-- Shorthand: logical removal for tenant `"t"`, kind `"semantic"`. -/
def rmSemT (vi : VectorIndex) (i : Int) : VectorIndex :=
  okIdx vi (VectorIndex.remove vi tT semanticT i)

/-- The 15 row ids of the later-deleted entries of the C9
counterexample. -/
def deadIds : List Int := (List.range 15).map (fun n => (n : Int) + 1)

/-- C9 counterexample: insert 15 vectors equal to the query (handles
0–14), then two vectors for rows 16 and 17 (handles 15, 16), then
logically delete the first 15.  Exactly 2 live entries remain, but all
15 over-fetched candidates (`k*3 = 15` out of 17 stored vectors) are
the more-similar dead ones. -/
def c9vi : VectorIndex :=
  let v1 := deadIds.foldl (fun s i => addSemT s i q1) (VectorIndex.init 1)
  let v2 := addSemT (addSemT v1 16 qneg) 17 qneg
  deadIds.foldl (fun s i => rmSemT s i) v2

/-- C9 witness: a well-formed index with exactly the two live entries
`(t, semantic, 1)` and `(t, semantic, 2)`. -/
def w9vi : VectorIndex := addSemT (addSemT (VectorIndex.init 1) 1 q1) 2 q1

/-- C10 witness vector: `‖[3,4]‖ = 5` is exactly representable. -/
def w10v : List ℚ := [3, 4]

/-- C10 witness query: `‖[0,2]‖ = 2`. -/
def w10q : List ℚ := [0, 2]

/-- C2 counterexample: episodic table with a row of tenant `"t"`
matching the query `"cats"`. -/
def c2est : EpState := ⟨2, [⟨1, tT, (r"I love cats").toList, userR⟩]⟩

/-- C2 counterexample: the manager state. -/
def c2ms : ManagerState := ⟨c2est, SemState.empty, VectorIndex.init 768⟩

/-- C2 counterexample: the query text. -/
def c2q : Str := (r"cats").toList

/-! # Theorems -/

/-! ## Norms of normalized vectors -/

theorem sumsq_cons (a : ℚ) (v : List ℚ) : sumsq (a :: v) = a * a + sumsq v := by
  simp [sumsq, dotL]

theorem sumsq_map_div (v : List ℚ) (r : ℚ) :
    sumsq (v.map (fun x => x / r)) = sumsq v / r ^ 2 := by
  induction v with
  | nil => simp [sumsq, dotL]
  | cons a t ih =>
    rw [List.map_cons, sumsq_cons, sumsq_cons, ih, div_mul_div_comm, pow_two,
      div_add_div_same]

theorem sumsq_normalizeL2 {v : List ℚ} (hv : ratSqrt (sumsq v) ^ 2 = sumsq v)
    (hv0 : sumsq v ≠ 0) : sumsq (normalizeL2 v) = 1 := by
  unfold normalizeL2
  rw [sumsq_map_div, hv]
  exact div_self hv0

theorem normalizeL2_ne {v : List ℚ} (hv : ratSqrt (sumsq v) ^ 2 = sumsq v)
    (hv0 : sumsq v ≠ 0) (hv1 : sumsq v ≠ 1) : normalizeL2 v ≠ v := by
  intro he
  apply hv1
  rw [← he]
  exact sumsq_normalizeL2 hv hv0

/-- A successful `add` hands the caller back the L2-normalized form of
the embedding buffer it passed in. -/
theorem add_buffer {vi : VectorIndex} {agent mt : Str} {mem_id : Int} {v : List ℚ}
    {vi2 : VectorIndex} {buf : List ℚ}
    (h : VectorIndex.add vi agent mt mem_id v = .ok (vi2, buf)) :
    buf = normalizeL2 v := by
  unfold VectorIndex.add at h
  dsimp only at h
  split at h
  · exact Except.noConfusion h
  · exact (congrArg Prod.snd (Except.ok.inj h)).symm

/-! ## Association list lemmas -/

section AListLemmas

variable {α β : Type} [DecidableEq α]

theorem aget_eq_none_iff (l : List (α × β)) (k : α) :
    aget l k = none ↔ k ∉ l.map Prod.fst := by
  induction l with
  | nil => simp [aget]
  | cons p t ih =>
    obtain ⟨a, b⟩ := p
    by_cases h : a = k
    · subst h
      simp [aget]
    · simp [aget, h, ih, Ne.symm h]

theorem mem_of_aget_eq_some {l : List (α × β)} {k : α} {v : β}
    (h : aget l k = some v) : (k, v) ∈ l := by
  induction l with
  | nil => simp [aget] at h
  | cons p t ih =>
    obtain ⟨a, b⟩ := p
    by_cases ha : a = k
    · subst ha
      simp [aget] at h
      simp [h]
    · simp [aget, ha] at h
      simp [ih h]

theorem aget_eq_some_of_mem {l : List (α × β)} {k : α} {v : β}
    (hn : (l.map Prod.fst).Nodup) (h : (k, v) ∈ l) : aget l k = some v := by
  induction l with
  | nil => simp at h
  | cons p t ih =>
    obtain ⟨a, b⟩ := p
    simp only [List.map_cons, List.nodup_cons] at hn
    rcases List.mem_cons.mp h with h1 | h1
    · obtain ⟨rfl, rfl⟩ := Prod.mk.injEq .. ▸ h1
      · simp [aget]
    · have hak : a ≠ k := by
        rintro rfl
        exact hn.1 (List.mem_map.mpr ⟨(a, v), h1, rfl⟩)
      simp [aget, hak, ih hn.2 h1]

theorem adel_some_of_aget {l : List (α × β)} {k : α} {v : β}
    (h : aget l k = some v) : ∃ l2, adel l k = some l2 := by
  induction l with
  | nil => simp [aget] at h
  | cons p t ih =>
    obtain ⟨a, b⟩ := p
    by_cases ha : a = k
    · exact ⟨t, by simp [adel, ha]⟩
    · simp only [aget, if_neg ha] at h
      obtain ⟨t2, ht⟩ := ih h
      exact ⟨(a, b) :: t2, by simp [adel, ha, ht]⟩

theorem adel_sublist {l l2 : List (α × β)} {k : α}
    (h : adel l k = some l2) : l2.Sublist l := by
  induction l generalizing l2 with
  | nil => simp [adel] at h
  | cons p t ih =>
    obtain ⟨a, b⟩ := p
    by_cases ha : a = k
    · simp only [adel, if_pos ha, Option.some.injEq] at h
      subst h
      exact List.sublist_cons_self _ _
    · simp only [adel, if_neg ha] at h
      rcases ht : adel t k with _ | t2
      · rw [ht] at h
        simp at h
      · rw [ht] at h
        simp only [Option.map_some', Option.some.injEq] at h
        subst h
        exact (ih ht).cons₂ _

theorem aget_adel_other {l l2 : List (α × β)} {k k2 : α}
    (h : adel l k = some l2) (hne : k2 ≠ k) : aget l2 k2 = aget l k2 := by
  induction l generalizing l2 with
  | nil => simp [adel] at h
  | cons p t ih =>
    obtain ⟨a, b⟩ := p
    by_cases ha : a = k
    · simp only [adel, if_pos ha] at h
      obtain rfl := Option.some.inj h
      subst ha
      have hak : a ≠ k2 := fun hh => hne hh.symm
      simp [aget, hak]
    · simp only [adel, if_neg ha] at h
      rcases ht : adel t k with _ | t2
      · rw [ht] at h
        simp at h
      · rw [ht] at h
        obtain rfl := Option.some.inj (by simpa using h)
        by_cases hak : a = k2
        · simp [aget, hak]
        · simp [aget, hak, ih ht]

theorem aget_adel_self {l l2 : List (α × β)} {k : α}
    (hn : (l.map Prod.fst).Nodup) (h : adel l k = some l2) : aget l2 k = none := by
  induction l generalizing l2 with
  | nil => simp [adel] at h
  | cons p t ih =>
    obtain ⟨a, b⟩ := p
    simp only [List.map_cons, List.nodup_cons] at hn
    by_cases ha : a = k
    · simp only [adel, if_pos ha] at h
      obtain rfl := Option.some.inj h
      subst ha
      exact (aget_eq_none_iff _ _).mpr hn.1
    · simp only [adel, if_neg ha] at h
      rcases ht : adel t k with _ | t2
      · rw [ht] at h
        simp at h
      · rw [ht] at h
        obtain rfl := Option.some.inj (by simpa using h)
        simp [aget, ha, ih hn.2 ht]

theorem adel_mem {l l2 : List (α × β)} {k : α}
    (h : adel l k = some l2) : ∀ p ∈ l2, p ∈ l :=
  fun _ hp => (adel_sublist h).mem hp

theorem adel_keys_nodup {l l2 : List (α × β)} {k : α}
    (hn : (l.map Prod.fst).Nodup) (h : adel l k = some l2) :
    (l2.map Prod.fst).Nodup :=
  hn.sublist ((adel_sublist h).map Prod.fst)

end AListLemmas

/-! ## String lemmas: startswith, split, digits -/

theorem startswithL_self_append (p r : Str) : startswithL p (p ++ r) = true := by
  induction p with
  | nil => rfl
  | cons c cs ih => simp [startswithL, ih]

theorem exists_of_startswithL {p k : Str} (h : startswithL p k = true) :
    ∃ r, k = p ++ r := by
  induction p generalizing k with
  | nil => exact ⟨k, rfl⟩
  | cons c cs ih =>
    cases k with
    | nil => simp [startswithL] at h
    | cons d ds =>
      simp only [startswithL, Bool.and_eq_true, decide_eq_true_eq] at h
      obtain ⟨r, rfl⟩ := ih h.2
      exact ⟨r, by simp [h.1]⟩

theorem splitC_ne_nil (l : Str) : splitC l ≠ [] := by
  cases l with
  | nil => simp [splitC]
  | cons c cs =>
    by_cases h : c = ':'
    · simp [splitC, h]
    · simp only [splitC, if_neg h]
      rcases hs : splitC cs with _ | ⟨g, gs⟩
      · simp
      · simp

theorem joinC_splitC (l : Str) : joinC (splitC l) = l := by
  induction l with
  | nil => rfl
  | cons c cs ih =>
    by_cases h : c = ':'
    · subst h
      simp only [splitC, if_pos rfl]
      rcases hs : splitC cs with _ | ⟨g, gs⟩
      · exact absurd hs (splitC_ne_nil cs)
      · rw [hs] at ih
        simpa [joinC] using ih
    · simp only [splitC, if_neg h]
      rcases hs : splitC cs with _ | ⟨g, gs⟩
      · exact absurd hs (splitC_ne_nil cs)
      · rw [hs] at ih
        cases gs with
        | nil => simpa [joinC] using ih
        | cons g2 gs2 => simpa [joinC] using ih

theorem splitC_colonFree {a : Str} (h : colonFree a) : splitC a = [a] := by
  induction a with
  | nil => rfl
  | cons c cs ih =>
    have hc : ¬c = ':' := fun hh => h (by simp [hh])
    have hcs : colonFree cs := fun hh => h (List.mem_cons_of_mem _ hh)
    simp [splitC, hc, ih hcs]

theorem splitC_append_colonFree {a : Str} (h : colonFree a) (r : Str) :
    splitC (a ++ ':' :: r) = a :: splitC r := by
  induction a with
  | nil => simp [splitC]
  | cons c cs ih =>
    have hc : ¬c = ':' := fun hh => h (by simp [hh])
    have hcs : colonFree cs := fun hh => h (List.mem_cons_of_mem _ hh)
    rw [List.cons_append]
    simp only [splitC, if_neg hc, ih hcs]

/-- Two colon-free segments followed by `':'` determine each other. -/
theorem colonFree_sep_inj {a b x y : Str} (ha : colonFree a) (hb : colonFree b)
    (h : a ++ ':' :: x = b ++ ':' :: y) : a = b ∧ x = y := by
  induction a generalizing b with
  | nil =>
    cases b with
    | nil => simpa using h
    | cons d ds =>
      rw [List.nil_append, List.cons_append] at h
      obtain ⟨rfl, -⟩ := List.cons.inj h
      exact absurd (List.mem_cons_self _ _) hb
  | cons c cs ih =>
    cases b with
    | nil =>
      rw [List.nil_append, List.cons_append] at h
      obtain ⟨rfl, -⟩ := List.cons.inj h
      exact absurd (List.mem_cons_self _ _) ha
    | cons d ds =>
      rw [List.cons_append, List.cons_append] at h
      obtain ⟨rfl, h2⟩ := List.cons.inj h
      have hcs : colonFree cs := fun hh => ha (List.mem_cons_of_mem _ hh)
      have hds : colonFree ds := fun hh => hb (List.mem_cons_of_mem _ hh)
      obtain ⟨rfl, rfl⟩ := ih hcs hds h2
      exact ⟨rfl, rfl⟩

/-! ## Decimal rendering: roundtrip lemmas -/

theorem digitC_isDigit {d : Nat} (h : d < 10) : (digitC d).isDigit = true := by
  interval_cases d <;> decide

theorem digVal_digitC {d : Nat} (h : d < 10) : digVal (digitC d) = d := by
  interval_cases d <;> decide

theorem natToCharsAux_fuel (n : Nat) :
    ∀ (f1 f2 : Nat), n < f1 → n < f2 → ∀ acc,
      natToCharsAux f1 n acc = natToCharsAux f2 n acc := by
  induction n using Nat.strong_induction_on with
  | _ n ih =>
    intro f1 f2 h1 h2 acc
    match f1, f2 with
    | g1 + 1, g2 + 1 =>
      by_cases h10 : n < 10
      · simp [natToCharsAux, h10]
      · simp only [natToCharsAux, if_neg h10]
        have hlt : n / 10 < n := Nat.div_lt_self (by omega) (by omega)
        exact ih _ hlt _ _ (by omega) (by omega) _

theorem natToCharsAux_acc (n : Nat) :
    ∀ (f : Nat), n < f → ∀ acc,
      natToCharsAux f n acc = natToCharsAux f n [] ++ acc := by
  induction n using Nat.strong_induction_on with
  | _ n ih =>
    intro f hf acc
    match f with
    | g + 1 =>
      by_cases h10 : n < 10
      · simp [natToCharsAux, h10]
      · simp only [natToCharsAux, if_neg h10]
        have hlt : n / 10 < n := Nat.div_lt_self (by omega) (by omega)
        have hg : n / 10 < g := by omega
        rw [ih _ hlt _ hg (digitC (n % 10) :: acc), ih _ hlt _ hg [digitC (n % 10)]]
        simp

/-- The recursion step of `natToChars` for numbers of two or more
digits. -/
theorem natToChars_step {n : Nat} (h : 10 ≤ n) :
    natToChars n = natToChars (n / 10) ++ [digitC (n % 10)] := by
  have hlt : n / 10 < n := Nat.div_lt_self (by omega) (by omega)
  unfold natToChars
  conv =>
    lhs
    rw [natToCharsAux]
  rw [if_neg (by omega)]
  rw [natToCharsAux_acc (n / 10) n (by omega) [digitC (n % 10)]]
  rw [natToCharsAux_fuel (n / 10) n (n / 10 + 1) (by omega) (by omega)]

theorem natToChars_small {n : Nat} (h : n < 10) : natToChars n = [digitC n] := by
  unfold natToChars
  rw [natToCharsAux]
  rw [if_pos h]

theorem charsVal_append_digit (l : List Char) (c : Char) :
    charsVal (l ++ [c]) = charsVal l * 10 + digVal c := by
  simp [charsVal, List.foldl_append]

theorem charsVal_natToChars (n : Nat) : charsVal (natToChars n) = n := by
  induction n using Nat.strong_induction_on with
  | _ n ih =>
    by_cases h10 : n < 10
    · rw [natToChars_small h10]
      simp [charsVal, digVal_digitC h10]
    · have hlt : n / 10 < n := Nat.div_lt_self (by omega) (by omega)
      rw [natToChars_step (by omega), charsVal_append_digit, ih _ hlt,
        digVal_digitC (show n % 10 < 10 by omega)]
      omega

theorem natToChars_ne_nil (n : Nat) : natToChars n ≠ [] := by
  by_cases h10 : n < 10
  · rw [natToChars_small h10]
    simp
  · rw [natToChars_step (by omega)]
    simp

theorem natToChars_all_digits (n : Nat) :
    ∀ c ∈ natToChars n, c.isDigit = true := by
  induction n using Nat.strong_induction_on with
  | _ n ih =>
    by_cases h10 : n < 10
    · rw [natToChars_small h10]
      intro c hc
      rw [List.mem_singleton] at hc
      subst hc
      exact digitC_isDigit h10
    · have hlt : n / 10 < n := Nat.div_lt_self (by omega) (by omega)
      rw [natToChars_step (by omega)]
      intro c hc
      rcases List.mem_append.mp hc with hc | hc
      · exact ih _ hlt c hc
      · rw [List.mem_singleton] at hc
        subst hc
        exact digitC_isDigit (Nat.mod_lt _ (by omega))

theorem charsToNat?_natToChars (n : Nat) : charsToNat? (natToChars n) = some n := by
  unfold charsToNat?
  rw [if_pos ⟨natToChars_ne_nil n, List.all_eq_true.mpr (natToChars_all_digits n)⟩,
    charsVal_natToChars]

theorem isDigit_ne_minus {c : Char} (h : c.isDigit = true) : c ≠ '-' := by
  rintro rfl
  simp [Char.isDigit] at h

theorem isDigit_ne_colon {c : Char} (h : c.isDigit = true) : c ≠ ':' := by
  rintro rfl
  simp [Char.isDigit] at h

theorem charsToInt?_intToStr (i : Int) : charsToInt? (intToStr i) = some i := by
  by_cases hneg : i < 0
  · rw [intToStr, if_pos hneg]
    rw [show charsToInt? ('-' :: natToChars i.natAbs) =
      (charsToNat? (natToChars i.natAbs)).map (fun n => -(n : Int)) by
        simp [charsToInt?]]
    rw [charsToNat?_natToChars]
    exact congrArg some (show -(i.natAbs : Int) = i by omega)
  · rw [intToStr, if_neg hneg]
    rcases hl : natToChars i.toNat with _ | ⟨c, cs⟩
    · exact absurd hl (natToChars_ne_nil _)
    · have hc : ¬c = '-' :=
        isDigit_ne_minus (natToChars_all_digits i.toNat c (by rw [hl]; simp))
      rw [show charsToInt? (c :: cs) =
        (charsToNat? (c :: cs)).map (fun n => (n : Int)) by simp [charsToInt?, hc]]
      rw [← hl, charsToNat?_natToChars]
      exact congrArg some (show (i.toNat : Int) = i by omega)

theorem colonFree_intToStr (i : Int) : colonFree (intToStr i) := by
  intro hmem
  unfold intToStr at hmem
  by_cases hneg : i < 0
  · rw [if_pos hneg] at hmem
    rcases List.mem_cons.mp hmem with h | h
    · exact absurd h (by decide)
    · exact isDigit_ne_colon (natToChars_all_digits i.natAbs ':' h) rfl
  · rw [if_neg hneg] at hmem
    exact isDigit_ne_colon (natToChars_all_digits i.toNat ':' hmem) rfl

/-! ## Key construction and parsing -/

theorem splitC_make_key {a m : Str} (i : Int) (ha : colonFree a) (hm : colonFree m) :
    splitC (VectorIndex._make_key a m i) = [a, m, intToStr i] := by
  unfold VectorIndex._make_key
  rw [splitC_append_colonFree ha, splitC_append_colonFree hm,
    splitC_colonFree (colonFree_intToStr i)]

theorem parse_make_key {a m : Str} (i : Int) (ha : colonFree a) (hm : colonFree m) :
    VectorIndex._parse_key (VectorIndex._make_key a m i) = some (a, m, i) := by
  have h2 : VectorIndex._parse_key (VectorIndex._make_key a m i) =
      (charsToInt? (intToStr i)).map (fun j => (a, m, j)) := by
    unfold VectorIndex._parse_key
    rw [splitC_make_key i ha hm]
  rw [h2, charsToInt?_intToStr]
  rfl

/-- A key that parses with first component `aid` starts with
`aid ++ ":"` — the over-approximation `clear_agent` filters by. -/
theorem parse_key_startswith {key aid mt : Str} {mid : Int}
    (h : VectorIndex._parse_key key = some (aid, mt, mid)) :
    startswithL (aid ++ [':']) key = true := by
  rcases hs : splitC key with _ | ⟨p0, ps⟩
  · exact absurd hs (splitC_ne_nil key)
  · rcases ps with _ | ⟨p1, ps2⟩
    · have h2 : VectorIndex._parse_key key = none := by
        unfold VectorIndex._parse_key
        rw [hs]
      rw [h2] at h
      exact Option.noConfusion h
    · rcases ps2 with _ | ⟨p2, ps3⟩
      · have h2 : VectorIndex._parse_key key = none := by
          unfold VectorIndex._parse_key
          rw [hs]
        rw [h2] at h
        exact Option.noConfusion h
      · have h2 : VectorIndex._parse_key key =
            (charsToInt? p2).map (fun j => (p0, p1, j)) := by
          unfold VectorIndex._parse_key
          rw [hs]
        rw [h2] at h
        rcases hi : charsToInt? p2 with _ | j
        · rw [hi] at h
          exact Option.noConfusion h
        · rw [hi] at h
          simp only [Option.map_some', Option.some.injEq, Prod.mk.injEq] at h
          obtain ⟨h0, -, -⟩ := h
          subst h0
          have hk : key = p0 ++ ':' :: joinC (p1 :: p2 :: ps3) := by
            conv =>
              lhs
              rw [← joinC_splitC key]
            rw [hs]
            rfl
          rw [hk, show p0 ++ ':' :: joinC (p1 :: p2 :: ps3) =
            (p0 ++ [':']) ++ joinC (p1 :: p2 :: ps3) by simp]
          exact startswithL_self_append _ _

/-- Keys of different colon-free tenants are not prefix-related:
`_make_key A m i` never starts with `B ++ ":"` when `A ≠ B`. -/
theorem make_key_not_startswith {A B m : Str} (i : Int)
    (hA : colonFree A) (hB : colonFree B) (hne : A ≠ B) :
    startswithL (B ++ [':']) (VectorIndex._make_key A m i) = false := by
  by_contra h
  rw [Bool.not_eq_false] at h
  obtain ⟨r, hr⟩ := exists_of_startswithL h
  unfold VectorIndex._make_key at hr
  rw [show (B ++ [':']) ++ r = B ++ ':' :: r by simp] at hr
  exact hne (colonFree_sep_inj hA hB hr).1

/-! ## `VectorIndex` invariant lemmas -/

/-- On a well-formed index, `remove_by_key` never raises: it returns a
well-formed index in which exactly the given key is gone from
`key_to_id`, `id_to_key` shrinks, and the faiss storage is
untouched. -/
theorem remove_by_key_ok (vi : VectorIndex) (key : Str) (hWF : WFvi vi) :
    ∃ vi2, VectorIndex.remove_by_key vi key = .ok vi2 ∧ WFvi vi2 ∧
      (∀ k2, aget vi2.key_to_id k2 = if k2 = key then none else aget vi.key_to_id k2) ∧
      (∀ p ∈ vi2.id_to_key, p ∈ vi.id_to_key) ∧
      vi2.index = vi.index := by
  obtain ⟨hn1, hn2, h3, h4⟩ := hWF
  unfold VectorIndex.remove_by_key
  rcases hk : aget vi.key_to_id key with _ | fid
  · refine ⟨vi, rfl, ⟨hn1, hn2, h3, h4⟩, ?_, fun p hp => hp, rfl⟩
    intro k2
    by_cases h : k2 = key
    · subst h
      simp [hk]
    · simp [h]
  · have hmem : (key, fid) ∈ vi.key_to_id := mem_of_aget_eq_some hk
    have hid : aget vi.id_to_key fid = some key := h4 _ hmem
    obtain ⟨kt, hkt⟩ := adel_some_of_aget hk
    obtain ⟨it, hit⟩ := adel_some_of_aget hid
    simp only [hkt, hit]
    refine ⟨_, rfl, ⟨adel_keys_nodup hn1 hit, adel_keys_nodup hn2 hkt, ?_, ?_⟩,
      ?_, ?_, rfl⟩
    · intro p hp
      have hpmem : p ∈ vi.id_to_key := adel_mem hit p hp
      have hp2 : p.2 ≠ key := by
        rintro hpk
        have hfid : p.1 = fid := by
          have := h3 p hpmem
          rw [hpk, hk] at this
          exact (Option.some.inj this).symm
        have hno : aget it p.1 = none := hfid ▸ aget_adel_self hn1 hit
        have hsome : aget it p.1 = some p.2 :=
          aget_eq_some_of_mem (adel_keys_nodup hn1 hit) (show (p.1, p.2) ∈ it by
            simpa using hp)
        rw [hno] at hsome
        exact Option.noConfusion hsome
      rw [aget_adel_other hkt hp2]
      exact h3 p hpmem
    · intro p hp
      have hpmem : p ∈ vi.key_to_id := adel_mem hkt p hp
      have hp2 : p.2 ≠ fid := by
        rintro hpf
        have hkey : p.1 = key := by
          have := h4 p hpmem
          rw [hpf, hid] at this
          exact (Option.some.inj this).symm
        have hno : aget kt p.1 = none := hkey ▸ aget_adel_self hn2 hkt
        have hsome : aget kt p.1 = some p.2 :=
          aget_eq_some_of_mem (adel_keys_nodup hn2 hkt) (show (p.1, p.2) ∈ kt by
            simpa using hp)
        rw [hno] at hsome
        exact Option.noConfusion hsome
      rw [aget_adel_other hit hp2]
      exact h4 p hpmem
    · intro k2
      by_cases h : k2 = key
      · subst h
        simp [aget_adel_self hn2 hkt]
      · simp [h, aget_adel_other hkt h]
    · exact adel_mem hit

/-- The removal loop of `clear_agent`, iterated over distinct snapshot
keys, removes exactly those keys. -/
theorem clearLoop_ok (keys : List Str) :
    ∀ vi, WFvi vi → ∃ vi2, VectorIndex.clearLoop keys vi = .ok vi2 ∧ WFvi vi2 ∧
      (∀ k2, aget vi2.key_to_id k2 = if k2 ∈ keys then none else aget vi.key_to_id k2) ∧
      (∀ p ∈ vi2.id_to_key, p ∈ vi.id_to_key) ∧ vi2.index = vi.index := by
  induction keys with
  | nil =>
    intro vi hWF
    exact ⟨vi, rfl, hWF, fun k2 => by simp, fun p hp => hp, rfl⟩
  | cons key rest ih =>
    intro vi hWF
    obtain ⟨vi1, hv1, hWF1, hchar1, hsub1, hidx1⟩ := remove_by_key_ok vi key hWF
    obtain ⟨vi2, hv2, hWF2, hchar2, hsub2, hidx2⟩ := ih vi1 hWF1
    refine ⟨vi2, ?_, hWF2, ?_, fun p hp => hsub1 p (hsub2 p hp), hidx2.trans hidx1⟩
    · unfold VectorIndex.clearLoop
      rw [hv1]
      exact hv2
    · intro k2
      rw [hchar2 k2]
      by_cases hr : k2 ∈ rest
      · simp [hr]
      · rw [if_neg hr, hchar1 k2]
        by_cases hk : k2 = key
        · simp [hk]
        · simp [hk, hr]

/-- On a well-formed index, `clear_agent` succeeds; afterwards no key
starting with `agent ++ ":"` is live, other keys are untouched, and
the faiss storage is untouched. -/
theorem clear_agent_ok (vi : VectorIndex) (agent : Str) (hWF : WFvi vi) :
    ∃ vi2, VectorIndex.clear_agent vi agent = .ok vi2 ∧ WFvi vi2 ∧
      (∀ k2, startswithL (agent ++ [':']) k2 = true → aget vi2.key_to_id k2 = none) ∧
      (∀ k2, startswithL (agent ++ [':']) k2 = false →
        aget vi2.key_to_id k2 = aget vi.key_to_id k2) ∧
      (∀ p ∈ vi2.id_to_key, p ∈ vi.id_to_key) ∧ vi2.index = vi.index := by
  obtain ⟨vi2, hv2, hWF2, hchar, hsub, hidx⟩ :=
    clearLoop_ok ((vi.key_to_id.map Prod.fst).filter
      (fun k2 => startswithL (agent ++ [':']) k2)) vi hWF
  refine ⟨vi2, hv2, hWF2, ?_, ?_, hsub, hidx⟩
  · intro k2 hpre
    rw [hchar k2]
    by_cases hmem : k2 ∈ (vi.key_to_id.map Prod.fst).filter
        (fun k3 => startswithL (agent ++ [':']) k3)
    · simp [hmem]
    · rw [if_neg hmem]
      rw [aget_eq_none_iff]
      intro hk2
      exact hmem (List.mem_filter.mpr ⟨hk2, hpre⟩)
  · intro k2 hpre
    rw [hchar k2]
    rw [if_neg]
    intro hmem
    rw [(List.mem_filter.mp hmem).2] at hpre
    exact Bool.noConfusion hpre

/-! ## Search-loop lemmas -/

/-- The scan loop returns at most `k` ids (the loop breaks as soon as
`k` results are collected). -/
theorem searchLoop_length (m : List (Int × Str)) (agent sem : Str) (k : Nat) :
    ∀ cands acc l, acc.length < k →
      VectorIndex.searchLoop m agent sem k cands acc = .ok l → l.length ≤ k := by
  intro cands
  induction cands with
  | nil =>
    intro acc l hlt h
    obtain rfl := Except.ok.inj h
    simpa using Nat.le_of_lt hlt
  | cons idx rest ih =>
    intro acc l hlt h
    unfold VectorIndex.searchLoop at h
    by_cases hneg : idx = -1
    · rw [if_pos hneg] at h
      exact ih acc l hlt h
    · rw [if_neg hneg] at h
      rcases hkey : aget m idx with _ | key
      · simp only [hkey] at h
        exact ih acc l hlt h
      · simp only [hkey] at h
        rcases hp : VectorIndex._parse_key key with _ | ⟨aid, mt, mid2⟩
        · simp only [hp] at h
          exact Except.noConfusion h
        · simp only [hp] at h
          by_cases hfilter : aid = agent ∧ mt = sem
          · rw [if_pos hfilter] at h
            by_cases hbreak : k ≤ (mid2 :: acc).length
            · rw [if_pos hbreak] at h
              obtain rfl := Except.ok.inj h
              simpa using hlt
            · rw [if_neg hbreak] at h
              exact ih _ l (by simp at hbreak ⊢; omega) h
          · rw [if_neg hfilter] at h
            exact ih acc l hlt h

/-- Every id the scan loop adds resolves, at the moment it is
filtered, to a live `id_to_key` mapping whose key parses to this
agent, this kind and this row id. -/
theorem searchLoop_sound (m : List (Int × Str)) (agent sem : Str) (k : Nat) :
    ∀ cands acc l, VectorIndex.searchLoop m agent sem k cands acc = .ok l →
      (∀ mid ∈ acc, ∃ fid key, aget m fid = some key ∧
        VectorIndex._parse_key key = some (agent, sem, mid)) →
      ∀ mid ∈ l, ∃ fid key, aget m fid = some key ∧
        VectorIndex._parse_key key = some (agent, sem, mid) := by
  intro cands
  induction cands with
  | nil =>
    intro acc l h hacc mid hmid
    obtain rfl := Except.ok.inj h
    exact hacc mid (by simpa using hmid)
  | cons idx rest ih =>
    intro acc l h hacc mid hmid
    unfold VectorIndex.searchLoop at h
    by_cases hneg : idx = -1
    · rw [if_pos hneg] at h
      exact ih acc l h hacc mid hmid
    · rw [if_neg hneg] at h
      rcases hkey : aget m idx with _ | key
      · simp only [hkey] at h
        exact ih acc l h hacc mid hmid
      · simp only [hkey] at h
        rcases hp : VectorIndex._parse_key key with _ | ⟨aid, mt, mid2⟩
        · simp only [hp] at h
          exact Except.noConfusion h
        · simp only [hp] at h
          by_cases hfilter : aid = agent ∧ mt = sem
          · obtain ⟨rfl, rfl⟩ := hfilter
            rw [if_pos ⟨rfl, rfl⟩] at h
            have hacc2 : ∀ x ∈ mid2 :: acc, ∃ fid key2, aget m fid = some key2 ∧
                VectorIndex._parse_key key2 = some (aid, mt, x) := by
              intro x hx
              rcases List.mem_cons.mp hx with rfl | hx
              · exact ⟨idx, key, hkey, hp⟩
              · exact hacc x hx
            by_cases hbreak : k ≤ (mid2 :: acc).length
            · rw [if_pos hbreak] at h
              obtain rfl := Except.ok.inj h
              exact hacc2 mid (List.mem_cons.mpr (Or.symm (by simpa using hmid)))
            · rw [if_neg hbreak] at h
              exact ih _ l h hacc2 mid hmid
          · rw [if_neg hfilter] at h
            exact ih acc l h hacc mid hmid

/-- Under a no-live-match hypothesis for the agent, the scan loop can
only ever return its accumulator: a successful search for that agent
is empty. -/
theorem searchLoop_no_match (m : List (Int × Str)) (agent sem : Str) (k : Nat)
    (hnone : ∀ fid key, aget m fid = some key →
      ∀ aid mt mid, VectorIndex._parse_key key = some (aid, mt, mid) → ¬aid = agent) :
    ∀ cands acc l, VectorIndex.searchLoop m agent sem k cands acc = .ok l →
      l = acc.reverse := by
  intro cands
  induction cands with
  | nil =>
    intro acc l h
    exact (Except.ok.inj h).symm
  | cons idx rest ih =>
    intro acc l h
    unfold VectorIndex.searchLoop at h
    by_cases hneg : idx = -1
    · rw [if_pos hneg] at h
      exact ih acc l h
    · rw [if_neg hneg] at h
      rcases hkey : aget m idx with _ | key
      · simp only [hkey] at h
        exact ih acc l h
      · simp only [hkey] at h
        rcases hp : VectorIndex._parse_key key with _ | ⟨aid, mt, mid2⟩
        · simp only [hp] at h
          exact Except.noConfusion h
        · simp only [hp] at h
          rw [if_neg (fun hfilter => hnone idx key hkey aid mt mid2 hp hfilter.1)] at h
          exact ih acc l h

/-- When additionally every live key parses, the loop cannot raise:
it returns exactly the accumulator. -/
theorem searchLoop_no_match_ok (m : List (Int × Str)) (agent sem : Str) (k : Nat)
    (hnone : ∀ fid key, aget m fid = some key →
      ∀ aid mt mid, VectorIndex._parse_key key = some (aid, mt, mid) → ¬aid = agent)
    (hparse : ∀ fid key, aget m fid = some key → (VectorIndex._parse_key key).isSome) :
    ∀ cands acc, VectorIndex.searchLoop m agent sem k cands acc = .ok acc.reverse := by
  intro cands
  induction cands with
  | nil =>
    intro acc
    rfl
  | cons idx rest ih =>
    intro acc
    unfold VectorIndex.searchLoop
    by_cases hneg : idx = -1
    · rw [if_pos hneg]
      exact ih acc
    · rw [if_neg hneg]
      rcases hkey : aget m idx with _ | key
      · simp only [hkey]
        exact ih acc
      · simp only [hkey]
        rcases hp : VectorIndex._parse_key key with _ | ⟨aid, mt, mid2⟩
        · have := hparse idx key hkey
          rw [hp] at this
          exact Bool.noConfusion this
        · simp only [hp]
          rw [if_neg (fun hfilter => hnone idx key hkey aid mt mid2 hp hfilter.1)]
          exact ih acc

/-- When fewer matches exist than the break bound `k`, the scan loop
computes exactly the `filterMap` of `hitOf` over the candidates. -/
theorem searchLoop_filterMap (m : List (Int × Str)) (agent sem : Str) (k : Nat) :
    ∀ cands acc,
      (∀ idx ∈ cands, ∀ key, aget m idx = some key →
        (VectorIndex._parse_key key).isSome) →
      acc.length + (cands.filterMap (hitOf m agent sem)).length < k →
      VectorIndex.searchLoop m agent sem k cands acc =
        .ok (acc.reverse ++ cands.filterMap (hitOf m agent sem)) := by
  intro cands
  induction cands with
  | nil =>
    intro acc hp hlen
    simp [VectorIndex.searchLoop]
  | cons idx rest ih =>
    intro acc hp hlen
    have hprest : ∀ idx2 ∈ rest, ∀ key, aget m idx2 = some key →
        (VectorIndex._parse_key key).isSome :=
      fun idx2 h2 => hp idx2 (List.mem_cons_of_mem _ h2)
    unfold VectorIndex.searchLoop
    by_cases hneg : idx = -1
    · rw [if_pos hneg]
      have hnone : hitOf m agent sem idx = none := by
        simp [hitOf, hneg]
      rw [List.filterMap_cons_none hnone] at hlen ⊢
      exact ih acc hprest hlen
    · rw [if_neg hneg]
      rcases hkey : aget m idx with _ | key
      · have hnone : hitOf m agent sem idx = none := by
          simp [hitOf, hneg, hkey]
        rw [List.filterMap_cons_none hnone] at hlen ⊢
        simp only [hkey]
        exact ih acc hprest hlen
      · rcases hpp : VectorIndex._parse_key key with _ | ⟨aid, mt, mid2⟩
        · have := hp idx (List.mem_cons_self _ _) key hkey
          rw [hpp] at this
          exact Bool.noConfusion this
        · by_cases hfilter : aid = agent ∧ mt = sem
          · have hsome : hitOf m agent sem idx = some mid2 := by
              simp [hitOf, hneg, hkey, hpp, hfilter]
            rw [List.filterMap_cons_some hsome] at hlen ⊢
            simp only [hkey, hpp]
            rw [if_pos hfilter]
            rw [if_neg (by simp at hlen ⊢; omega)]
            rw [ih (mid2 :: acc) hprest (by simp at hlen ⊢; omega)]
            simp
          · have hnone : hitOf m agent sem idx = none := by
              simp only [hitOf, if_neg hneg, hkey, hpp]
              rw [if_neg hfilter]
            rw [List.filterMap_cons_none hnone] at hlen ⊢
            simp only [hkey, hpp]
            rw [if_neg hfilter]
            exact ih acc hprest hlen

/-! ## Sorting permutation and filterMap counting -/

theorem insertSorted_perm {α : Type} (ge : α → α → Bool) (x : α) (l : List α) :
    (insertSorted ge x l).Perm (x :: l) := by
  induction l with
  | nil => exact List.Perm.refl _
  | cons y t ih =>
    unfold insertSorted
    by_cases h : ge x y
    · rw [if_pos h]
    · rw [if_neg h]
      exact (ih.cons y).trans (List.Perm.swap x y t)

theorem sortByGe_perm {α : Type} (ge : α → α → Bool) (l : List α) :
    (sortByGe ge l).Perm l := by
  induction l with
  | nil => exact List.Perm.refl _
  | cons a t ih =>
    exact (insertSorted_perm ge a (sortByGe ge t)).trans (ih.cons a)

theorem filterMap_eq_single {α β : Type} [DecidableEq α] (g : α → Option β)
    (f : α) (v : β) : ∀ l : List α, l.Nodup → f ∈ l → g f = some v →
      (∀ x ∈ l, x ≠ f → g x = none) → l.filterMap g = [v] := by
  intro l
  induction l with
  | nil => simp
  | cons a t ih =>
    intro hn hmem hf hrest
    rcases List.mem_cons.mp hmem with rfl | hmem2
    · rw [List.filterMap_cons_some hf]
      rw [List.filterMap_eq_nil_iff.mpr]
      intro x hx
      exact hrest x (List.mem_cons_of_mem _ hx)
        (fun hxf => ((List.nodup_cons.mp hn).1 (hxf ▸ hx)))
    · have haf : a ≠ f := by
        rintro rfl
        exact (List.nodup_cons.mp hn).1 hmem2
      rw [List.filterMap_cons_none (hrest a (List.mem_cons_self _ _) haf)]
      exact ih (List.nodup_cons.mp hn).2 hmem2 hf
        (fun x hx => hrest x (List.mem_cons_of_mem _ hx))

theorem filterMap_eq_pair {α β : Type} [DecidableEq α] (g : α → Option β)
    (f1 f2 : α) (v1 v2 : β) : ∀ l : List α, l.Nodup → f1 ≠ f2 →
      f1 ∈ l → f2 ∈ l → g f1 = some v1 → g f2 = some v2 →
      (∀ x ∈ l, x ≠ f1 → x ≠ f2 → g x = none) →
      (l.filterMap g).Perm [v1, v2] := by
  intro l
  induction l with
  | nil => simp
  | cons a t ih =>
    intro hn hne h1 h2 hg1 hg2 hrest
    have hnd := List.nodup_cons.mp hn
    by_cases ha1 : a = f1
    · subst ha1
      have h2t : f2 ∈ t := by
        rcases List.mem_cons.mp h2 with h | h
        · exact absurd h.symm hne
        · exact h
      rw [List.filterMap_cons_some hg1]
      rw [filterMap_eq_single g f2 v2 t hnd.2 h2t hg2
        (fun x hx hxf2 => hrest x (List.mem_cons_of_mem _ hx)
          (fun hxf1 => hnd.1 (hxf1 ▸ hx)) hxf2)]
    · by_cases ha2 : a = f2
      · subst ha2
        have h1t : f1 ∈ t := by
          rcases List.mem_cons.mp h1 with h | h
          · exact absurd h.symm ha1
          · exact h
        rw [List.filterMap_cons_some hg2]
        rw [filterMap_eq_single g f1 v1 t hnd.2 h1t hg1
          (fun x hx hxf1 => hrest x (List.mem_cons_of_mem _ hx) hxf1
            (fun hxf2 => hnd.1 (hxf2 ▸ hx)))]
        exact List.Perm.swap v1 v2 []
      · rw [List.filterMap_cons_none (hrest a (List.mem_cons_self _ _) ha1 ha2)]
        have h1t : f1 ∈ t := by
          rcases List.mem_cons.mp h1 with h | h
          · exact absurd h.symm ha1
          · exact h
        have h2t : f2 ∈ t := by
          rcases List.mem_cons.mp h2 with h | h
          · exact absurd h.symm ha2
          · exact h
        exact ih hnd.2 hne h1t h2t hg1 hg2
          (fun x hx => hrest x (List.mem_cons_of_mem _ hx))

/-- Claim C1 (code_bug): evaluating `VectorIndex` at the failing input
`add(t,semantic,1); add(t,semantic,2); remove(t,semantic,1);
add(t,semantic,3)`.  The claim says every `add` allocates a handle
strictly greater than all earlier ones and a freed handle is never
reassigned; the code allocates `len(self.id_to_key)`, so after one
removal the fourth operation reallocates handle 1 — the very handle
the still-live entry `(t,semantic,2)` holds — overwriting
`id_to_key[1]` and leaving two live keys mapped to one handle. -/
theorem c1_handle_reuse_eval :
    isOkE (VectorIndex.add c1v0 tT semanticT 1 q1) = true ∧
    isOkE (VectorIndex.add c1v1 tT semanticT 2 q1) = true ∧
    isOkE (VectorIndex.remove c1v2 tT semanticT 1) = true ∧
    isOkE (VectorIndex.add c1v3 tT semanticT 3 q1) = true ∧
    aget c1v2.key_to_id (VectorIndex._make_key tT semanticT 2) = some 1 ∧
    aget c1v4.key_to_id (VectorIndex._make_key tT semanticT 3) = some 1 ∧
    aget c1v4.key_to_id (VectorIndex._make_key tT semanticT 2) = some 1 ∧
    aget c1v4.id_to_key 1 = some (VectorIndex._make_key tT semanticT 3) := by
  with_unfolding_all decide

/-- Claim C2 (counterexample): with one matching keyword row in the
event store and a failed embedding call, `search_memories` surfaces
the embedding error instead of returning the keyword results alone —
refuting the claim that the call "still returns normally with the
keyword results". -/
theorem c2_embed_failure_not_recovered_cex :
    search_memories c2ms tT c2q (Except.error .fail) = .error (.emb .fail) ∧
    EpisodicStore.search_by_agent c2ms.est tT c2q =
      [⟨1, tT, (r"I love cats").toList, userR⟩] := by
  with_unfolding_all decide

/-- Claim C2 (amended): an embedding-collaborator failure during hybrid
search propagates to the caller as a failure of the whole call; the
keyword results are not returned.  (`search_memories` has no
`try/except` around `processor.embed`.) -/
theorem c2_embed_failure_propagates (ms : ManagerState) (agent query : Str) (e : EmbErr) :
    search_memories ms agent query (Except.error e) = .error (.emb e) := rfl

/-- Claim C3 (code_bug): evaluating `update_memory_content` on a
kind=summary item.  The update reports success and rewrites the store
row, but the manager state it returns carries the vector index
**unchanged** (`c3vi0`, still holding the old embedding `c3vOld` under
`t:semantic:1`): the freshly computed embedding is passed to
`SemanticStore.update_content`, which ignores it, and no
`VectorIndex.add` happens — contradicting the claim (and the
function's own docstring) that the new vector is upserted into the
index. -/
theorem c3_update_semantic_index_untouched :
    update_memory_content c3ms tT 1 ((r"new fact").toList) semanticT (Except.ok c3vNew) =
      .ok (⟨EpState.empty, ⟨2, [⟨1, tT, (r"new fact").toList, (r"{}").toList⟩]⟩, c3vi0⟩,
           true) ∧
    c3vi0.index = [(0, c3vOld)] ∧
    aget c3vi0.key_to_id (VectorIndex._make_key tT semanticT 1) = some 0 := by
  with_unfolding_all decide

/-- Claim C4 (counterexample): tenants are opaque strings, but keys are
colon-joined.  Inserting one vector for tenant `A = "b:semantic:7"`
(row 9) makes `search` scoped to the different tenant `B = "b"` return
a hit (row id 7, parsed out of `A`'s key material), and
`clear_agent("b")` removes `A`'s live entry — both directions of the
isolation claim fail. -/
theorem c4_tenant_isolation_cex :
    bInjT ≠ bT ∧
    isOkE (VectorIndex.add (VectorIndex.init 1) bInjT semanticT 9 q1) = true ∧
    aget c4vi.key_to_id (VectorIndex._make_key bInjT semanticT 9) = some 0 ∧
    (VectorIndex.search c4vi bT q1 5).1 = .ok [7] ∧
    VectorIndex.clear_agent c4vi bT = .ok c4viCleared ∧
    aget c4viCleared.key_to_id (VectorIndex._make_key bInjT semanticT 9) = none := by
  with_unfolding_all decide

/-- Claim C5 (counterexample): after `clear_all_memories("b")`
completes, a hybrid search scoped to `"b"` does **not** return empty:
an unrelated tenant `"c:x"` (unaffected by the erasure, its key does
not start with `"b:"`) left the unparseable key `"c:x:semantic:9"` in
the index, and the post-erasure search dies with the `ValueError` from
`int("semantic")` instead of returning `[]`. -/
theorem c5_erasure_cex :
    clear_all_memories c5ms bT = .ok (c5after, 0) ∧
    search_memories c5after bT c5q (Except.ok q1) = .error (.idx .valueError) := by
  with_unfolding_all decide

/-- Claim C7 (confirmed): `delete_memory` leaves the vector index
untouched unless the awaited store deletion reported success: a store
I/O failure or a `False` (no row deleted) outcome yields the original
index — the store-then-index ordering with no partial index
mutation. -/
theorem c7_delete_store_then_index (vi : VectorIndex) (agent : Str) (mem_id : Int)
    (mem_type : Str) (store_outcome : Except StoreErr Bool)
    (h : store_outcome ≠ .ok true) :
    (delete_memory vi agent mem_id mem_type store_outcome).1 = vi := by
  rcases store_outcome with e | b
  · unfold delete_memory
    split
    · rfl
    · split
      · rfl
      · rfl
  · cases b
    · unfold delete_memory
      split
      · rfl
      · split
        · rfl
        · rfl
    · exact absurd rfl h

/-- Claim C7 (witness): concrete instance with a `False` store outcome:
the index is unchanged. -/
theorem c7_delete_store_then_index_witness :
    (delete_memory (VectorIndex.init 768) tT 1 semanticT (Except.ok false)).1 =
      VectorIndex.init 768 :=
  c7_delete_store_then_index (VectorIndex.init 768) tT 1 semanticT (Except.ok false)
    (by decide)

/-- Claim C8 (confirmed): `should_summarize_to_semantic` (interval 10)
is true exactly on exact multiples of 10, and over the counter values
1..30 of thirty admitted events it fires precisely at 10, 20 and 30.
The trigger is a pure function of the admitted-event counter alone, so
no interleaved deletion can affect it. -/
theorem c8_promotion_trigger (agent : Str) :
    (∀ n : Int, should_summarize_to_semantic agent n = true ↔ n % 10 = 0) ∧
    ((List.range 30).map (fun j => ((j : Int) + 1))).filter
      (fun n => should_summarize_to_semantic agent n) = [10, 20, 30] := by
  constructor
  · intro n
    simp [should_summarize_to_semantic]
  · rfl

/-- Claim C9 (counterexample): an index holding **exactly two** live
entries for tenant `t` (rows 16 and 17) on top of 17 stored vectors,
15 of which are logically deleted but more similar to the query.  The
`k*3 = 15` over-fetch is exhausted by the dead candidates, so
`search(t, q, k=5)` returns `[]`, not the two live ids — refuting
"returns exactly those 2 ids". -/
theorem c9_search_boundary_cex :
    c9vi.id_to_key = [(15, VectorIndex._make_key tT semanticT 16),
                      (16, VectorIndex._make_key tT semanticT 17)] ∧
    c9vi.key_to_id = [(VectorIndex._make_key tT semanticT 16, 15),
                      (VectorIndex._make_key tT semanticT 17, 16)] ∧
    (VectorIndex.search c9vi tT q1 5).1 = .ok [] := by
  with_unfolding_all decide

/-- Equation: `VectorIndex.search` unfolded to its scan loop over the
over-fetched, `-1`-padded candidate list. -/
theorem search_fst_eq (vi : VectorIndex) (agent : Str) (q : List ℚ) (k : Nat) :
    (VectorIndex.search vi agent q k).1 =
      VectorIndex.searchLoop vi.id_to_key agent semanticT k
        ((((sortByGe (fun a b => simGe q a.2 b.2) vi.index).map Prod.fst).take (k * 3)) ++
          List.replicate (k * 3 -
            (((sortByGe (fun a b => simGe q a.2 b.2) vi.index).map Prod.fst).take
              (k * 3)).length) (-1)) [] := rfl

/-- Claim C4 (amended): for tenants and kinds free of the `':'` key
delimiter, and an index whose two mappings are mutually inverse
(`WFvi` — which the handle-reuse bug of C1 can break), isolation
holds: every id returned by a search scoped to `B` resolves from a
live key that parses to tenant `B` and is not a key of the different
tenant `A`, and `clear_agent B` leaves every key of `A` untouched. -/
theorem c4_tenant_isolation_amended (vi : VectorIndex) (A B m : Str) (i : Int)
    (q : List ℚ) (k : Nat)
    (hA : colonFree A) (hB : colonFree B) (hm : colonFree m)
    (hAB : A ≠ B) (hWF : WFvi vi) :
    (∀ l, (VectorIndex.search vi B q k).1 = .ok l → ∀ mid ∈ l,
      ∃ fid key, aget vi.id_to_key fid = some key ∧
        VectorIndex._parse_key key = some (B, semanticT, mid) ∧
        ∀ i2, key ≠ VectorIndex._make_key A m i2) ∧
    (∃ vi2, VectorIndex.clear_agent vi B = .ok vi2 ∧
      aget vi2.key_to_id (VectorIndex._make_key A m i) =
        aget vi.key_to_id (VectorIndex._make_key A m i)) := by
  constructor
  · intro l hl mid hmid
    rw [search_fst_eq] at hl
    obtain ⟨fid, key, hkey, hparse⟩ :=
      searchLoop_sound vi.id_to_key B semanticT k _ [] l hl (by simp) mid hmid
    refine ⟨fid, key, hkey, hparse, ?_⟩
    intro i2 hkeyeq
    rw [hkeyeq, parse_make_key i2 hA hm] at hparse
    exact hAB (congrArg (fun p => p.1) (Option.some.inj hparse))
  · obtain ⟨vi2, hok, hWF2, hpre, hnopre, hsub, hidx⟩ := clear_agent_ok vi B hWF
    exact ⟨vi2, hok, hnopre _ (make_key_not_startswith i hA hB hAB)⟩

/-- Claim C4 (witness): concrete instance — a well-formed index holding
one vector of tenant `"a"`; searches scoped to `"b"` only ever resolve
`"b"`-keys and `clear_agent "b"` preserves `"a"`'s entry. -/
theorem c4_tenant_isolation_amended_witness :
    (∀ l, (VectorIndex.search w4vi bT q1 5).1 = .ok l → ∀ mid ∈ l,
      ∃ fid key, aget w4vi.id_to_key fid = some key ∧
        VectorIndex._parse_key key = some (bT, semanticT, mid) ∧
        ∀ i2, key ≠ VectorIndex._make_key aT semanticT i2) ∧
    (∃ vi2, VectorIndex.clear_agent w4vi bT = .ok vi2 ∧
      aget vi2.key_to_id (VectorIndex._make_key aT semanticT 1) =
        aget w4vi.key_to_id (VectorIndex._make_key aT semanticT 1)) :=
  c4_tenant_isolation_amended w4vi aT bT semanticT 1 q1 5
    (by decide) (by decide) (by decide) (by decide) (by with_unfolding_all decide)

/-- Tenant-scoped reads of a cleared episodic table are empty. -/
theorem ep_list_cleared (n : Nat) (rows : List EpRow) (T : Str) (limit : Nat) :
    EpisodicStore.list_by_agent_recent ⟨n, rows.filter (fun r => ¬r.agent = T)⟩ T limit
      = [] := by
  unfold EpisodicStore.list_by_agent_recent
  rw [show (rows.filter (fun r => ¬r.agent = T)).filter (fun r => r.agent = T) = [] by
    rw [List.filter_eq_nil_iff]
    intro r hr
    simpa using (List.mem_filter.mp hr).2]
  simp

/-- Tenant-scoped keyword search of a cleared episodic table is
empty. -/
theorem ep_search_cleared (n : Nat) (rows : List EpRow) (T q : Str) :
    EpisodicStore.search_by_agent ⟨n, rows.filter (fun r => ¬r.agent = T)⟩ T q = [] := by
  unfold EpisodicStore.search_by_agent
  rw [show (rows.filter (fun r => ¬r.agent = T)).filter
      (fun r => r.agent = T ∧ containsSub r.content q = true) = [] by
    rw [List.filter_eq_nil_iff]
    intro r hr hc
    exact absurd (of_decide_eq_true hc).1 (by simpa using (List.mem_filter.mp hr).2)]
  simp

/-- Tenant-scoped reads of a cleared semantic table are empty. -/
theorem sem_list_cleared (n : Nat) (rows : List SemRow) (T : Str) (limit : Nat) :
    SemanticStore.list_by_agent ⟨n, rows.filter (fun r => ¬r.agent = T)⟩ T limit = [] := by
  unfold SemanticStore.list_by_agent
  rw [show (rows.filter (fun r => ¬r.agent = T)).filter (fun r => r.agent = T) = [] by
    rw [List.filter_eq_nil_iff]
    intro r hr
    simpa using (List.mem_filter.mp hr).2]
  simp

/-- Id-resolution against a cleared semantic table is empty. -/
theorem sem_get_cleared (n : Nat) (rows : List SemRow) (T : Str) (ids : List Int) :
    SemanticStore.get_by_ids ⟨n, rows.filter (fun r => ¬r.agent = T)⟩ T ids = [] := by
  unfold SemanticStore.get_by_ids
  split
  · rfl
  · rw [List.filter_eq_nil_iff]
    intro r hr hc
    exact absurd (of_decide_eq_true hc).1 (by simpa using (List.mem_filter.mp hr).2)

/-- Claim C5 (amended): for an index with mutually inverse mappings,
after `clear_all_memories T` completes, `list_recent_memories T` is
empty and neither a vector search nor a hybrid search scoped to `T`
can return any id: whenever they return at all, they return empty —
they may instead die on another tenant's malformed (colon-injected)
key, and when every remaining key parses, the vector search returns
exactly `[]`.  The erasure path has no staleness exception. -/
theorem c5_erasure_amended (ms : ManagerState) (T q : Str) (limit k : Nat)
    (emb : List ℚ) (er : Except EmbErr (List ℚ)) (hWF : WFvi ms.vi) :
    ∃ ms2 cnt, clear_all_memories ms T = .ok (ms2, cnt) ∧
      list_recent_memories ms2 T limit = [] ∧
      (∀ l, (VectorIndex.search ms2.vi T emb k).1 = .ok l → l = []) ∧
      (∀ l, search_memories ms2 T q er = .ok l → l = []) ∧
      ((∀ p ∈ ms2.vi.id_to_key, (VectorIndex._parse_key p.2).isSome = true) →
        (VectorIndex.search ms2.vi T emb k).1 = .ok []) := by
  obtain ⟨vi2, hok, hWF2, hpre, hnopre, hsub, hidx⟩ := clear_agent_ok ms.vi T hWF
  have hnomatch : ∀ fid key, aget vi2.id_to_key fid = some key →
      ∀ aid mt mid, VectorIndex._parse_key key = some (aid, mt, mid) → ¬aid = T := by
    intro fid key hkey aid mt mid hparse haid
    subst haid
    have hsw := parse_key_startswith hparse
    have h0 : aget vi2.key_to_id key = none := hpre key hsw
    have hmemk : (fid, key) ∈ vi2.id_to_key := mem_of_aget_eq_some hkey
    have h1 : aget vi2.key_to_id key = some fid := hWF2.2.2.1 _ hmemk
    rw [h0] at h1
    exact Option.noConfusion h1
  refine ⟨⟨⟨ms.est.nextId, ms.est.rows.filter (fun r => ¬r.agent = T)⟩,
           ⟨ms.sst.nextId, ms.sst.rows.filter (fun r => ¬r.agent = T)⟩, vi2⟩,
         (ms.est.rows.filter (fun r => r.agent = T)).length +
           (ms.sst.rows.filter (fun r => r.agent = T)).length, ?_, ?_, ?_, ?_, ?_⟩
  · unfold clear_all_memories EpisodicStore.clear SemanticStore.clear
    rw [hok]
  · unfold list_recent_memories
    rw [ep_list_cleared, sem_list_cleared]
    rfl
  · intro l hl
    rw [search_fst_eq] at hl
    exact searchLoop_no_match vi2.id_to_key T semanticT k hnomatch _ [] l hl
  · intro l hl
    unfold search_memories at hl
    split at hl
    · exact Except.noConfusion hl
    · split at hl
      · exact Except.noConfusion hl
      · obtain rfl := (Except.ok.inj hl).symm
        rw [ep_search_cleared, sem_get_cleared]
        rfl
  · intro hparse
    rw [search_fst_eq]
    exact searchLoop_no_match_ok vi2.id_to_key T semanticT k hnomatch
      (fun fid key hkey => hparse _ (mem_of_aget_eq_some hkey)) _ []

/-- Claim C5 (witness): a concrete state (one episodic row, one summary
row, one vector, all of tenant `"a"`) erased for tenant `"a"`. -/
theorem c5_erasure_amended_witness :
    ∃ ms2 cnt, clear_all_memories w5ms aT = .ok (ms2, cnt) ∧
      list_recent_memories ms2 aT 10 = [] ∧
      (∀ l, (VectorIndex.search ms2.vi aT q1 5).1 = .ok l → l = []) ∧
      (∀ l, search_memories ms2 aT c5q (Except.ok q1) = .ok l → l = []) ∧
      ((∀ p ∈ ms2.vi.id_to_key, (VectorIndex._parse_key p.2).isSome = true) →
        (VectorIndex.search ms2.vi aT q1 5).1 = .ok []) :=
  c5_erasure_amended w5ms aT c5q 10 5 q1 (Except.ok q1) (by with_unfolding_all decide)

/-- Claim C9 (amended): searches return at most `k` ids, never pad, and
every returned id resolves at filtering time to a live mapping; and
the 2-live-entries boundary scenario returns exactly those 2 ids
**provided** the faiss storage holds at most `k*3 = 15` vectors in
total — logically deleted vectors still occupy candidate slots of the
over-fetch, and beyond 15 of them the live entries can be starved (the
counterexample). -/
theorem c9_search_bound_amended (vi : VectorIndex) (T : Str) (q : List ℚ) (k : Nat)
    (f1 f2 mid1 mid2 : Int) (v1 v2 : List ℚ)
    (hT : colonFree T) (hf12 : f1 ≠ f2) (hf1n : f1 ≠ -1) (hf2n : f2 ≠ -1)
    (hmap : vi.id_to_key = [(f1, VectorIndex._make_key T semanticT mid1),
                           (f2, VectorIndex._make_key T semanticT mid2)])
    (hnodup : (vi.index.map Prod.fst).Nodup)
    (hlen : vi.index.length ≤ 15)
    (hm1 : (f1, v1) ∈ vi.index) (hm2 : (f2, v2) ∈ vi.index) :
    (∀ l, (VectorIndex.search vi T q k).1 = .ok l → l.length ≤ k) ∧
    (∃ l, (VectorIndex.search vi T q 5).1 = .ok l ∧ l.length = 2 ∧
      mid1 ∈ l ∧ mid2 ∈ l ∧ ∀ x ∈ l, x = mid1 ∨ x = mid2) ∧
    (∀ l, (VectorIndex.search vi T q k).1 = .ok l → ∀ mid ∈ l,
      ∃ fid key, aget vi.id_to_key fid = some key ∧
        VectorIndex._parse_key key = some (T, semanticT, mid)) := by
  have hsem : colonFree semanticT := by decide
  have hget1 : aget vi.id_to_key f1 = some (VectorIndex._make_key T semanticT mid1) := by
    rw [hmap]
    simp [aget]
  have hget2 : aget vi.id_to_key f2 = some (VectorIndex._make_key T semanticT mid2) := by
    rw [hmap]
    have : ¬f1 = f2 := hf12
    simp [aget, this]
  have hgetNone : ∀ x, x ≠ f1 → x ≠ f2 → aget vi.id_to_key x = none := by
    intro x h1 h2
    rw [hmap]
    have e1 : ¬f1 = x := fun hh => h1 hh.symm
    have e2 : ¬f2 = x := fun hh => h2 hh.symm
    simp [aget, e1, e2]
  have hparse : ∀ (idx : Int) (key : Str), aget vi.id_to_key idx = some key →
      (VectorIndex._parse_key key).isSome = true := by
    intro idx key hkey
    have hmem := mem_of_aget_eq_some hkey
    rw [hmap] at hmem
    simp only [List.mem_cons, List.not_mem_nil, or_false] at hmem
    rcases hmem with h | h
    · have h2 : key = VectorIndex._make_key T semanticT mid1 := congrArg Prod.snd h
      rw [h2, parse_make_key mid1 hT hsem]
      rfl
    · have h2 : key = VectorIndex._make_key T semanticT mid2 := congrArg Prod.snd h
      rw [h2, parse_make_key mid2 hT hsem]
      rfl
  refine ⟨?_, ?_, ?_⟩
  · intro l hl
    by_cases hk0 : k = 0
    · subst hk0
      rw [search_fst_eq] at hl
      simp only [Nat.zero_mul, List.take_zero, List.length_nil, Nat.sub_self,
        List.replicate_zero, List.nil_append, VectorIndex.searchLoop,
        List.reverse_nil] at hl
      obtain rfl := Except.ok.inj hl
      simp
    · rw [search_fst_eq] at hl
      exact searchLoop_length _ _ _ k _ [] l (by simpa using Nat.pos_of_ne_zero hk0) hl
  · have hlensorted :=
      (sortByGe_perm (fun (a b : Int × List ℚ) => simGe q a.2 b.2) vi.index).length_eq
    have hperm :=
      (sortByGe_perm (fun (a b : Int × List ℚ) => simGe q a.2 b.2) vi.index).map Prod.fst
    have htake : ((sortByGe (fun a b => simGe q a.2 b.2) vi.index).map Prod.fst).take
        (5 * 3) = (sortByGe (fun a b => simGe q a.2 b.2) vi.index).map Prod.fst := by
      apply List.take_of_length_le
      simp [hlensorted]
      omega
    have hnodup2 := hperm.nodup_iff.mpr hnodup
    have hf1mem := hperm.mem_iff.mpr (List.mem_map_of_mem Prod.fst hm1)
    have hf2mem := hperm.mem_iff.mpr (List.mem_map_of_mem Prod.fst hm2)
    have hhit1 : hitOf vi.id_to_key T semanticT f1 = some mid1 := by
      simp [hitOf, hf1n, hget1, parse_make_key mid1 hT hsem]
    have hhit2 : hitOf vi.id_to_key T semanticT f2 = some mid2 := by
      simp [hitOf, hf2n, hget2, parse_make_key mid2 hT hsem]
    have hhitNone : ∀ x ∈ (sortByGe (fun a b => simGe q a.2 b.2) vi.index).map Prod.fst,
        x ≠ f1 → x ≠ f2 → hitOf vi.id_to_key T semanticT x = none := by
      intro x hx h1 h2
      by_cases hxn : x = -1
      · simp [hitOf, hxn]
      · simp [hitOf, hxn, hgetNone x h1 h2]
    have hfmperm : (((sortByGe (fun a b => simGe q a.2 b.2) vi.index).map
          Prod.fst).filterMap (hitOf vi.id_to_key T semanticT)).Perm [mid1, mid2] :=
      filterMap_eq_pair _ f1 f2 mid1 mid2 _ hnodup2 hf12 hf1mem hf2mem hhit1 hhit2 hhitNone
    have hpadnone : (List.replicate (5 * 3 -
          ((sortByGe (fun a b => simGe q a.2 b.2) vi.index).map Prod.fst).length)
          (-1 : Int)).filterMap (hitOf vi.id_to_key T semanticT) = [] := by
      rw [List.filterMap_eq_nil_iff]
      intro a ha
      rw [List.eq_of_mem_replicate ha]
      simp [hitOf]
    refine ⟨((sortByGe (fun a b => simGe q a.2 b.2) vi.index).map Prod.fst ++
        List.replicate (5 * 3 -
          ((sortByGe (fun a b => simGe q a.2 b.2) vi.index).map Prod.fst).length)
          (-1 : Int)).filterMap (hitOf vi.id_to_key T semanticT), ?_, ?_, ?_, ?_, ?_⟩
    · rw [search_fst_eq, htake]
      rw [searchLoop_filterMap vi.id_to_key T semanticT 5 _ []
        (fun idx _ key hk => hparse idx key hk)
        (by
          rw [List.filterMap_append, hpadnone, List.append_nil, hfmperm.length_eq]
          simp)]
      simp
    · rw [List.filterMap_append, hpadnone, List.append_nil]
      simpa using hfmperm.length_eq
    · rw [List.filterMap_append, hpadnone, List.append_nil]
      exact hfmperm.mem_iff.mpr (by simp)
    · rw [List.filterMap_append, hpadnone, List.append_nil]
      exact hfmperm.mem_iff.mpr (by simp)
    · rw [List.filterMap_append, hpadnone, List.append_nil]
      intro x hx
      simpa using hfmperm.mem_iff.mp hx
  · intro l hl mid hmid
    rw [search_fst_eq] at hl
    exact searchLoop_sound vi.id_to_key T semanticT k _ [] l hl (by simp) mid hmid

/-- Claim C9 (witness): a fresh index with exactly the two live entries
`(t, semantic, 1)` and `(t, semantic, 2)` over two stored vectors;
`search(t, q, 5)` returns exactly `[1, 2]`-as-a-set, never padded. -/
theorem c9_search_bound_amended_witness :
    (∀ l, (VectorIndex.search w9vi tT q1 5).1 = .ok l → l.length ≤ 5) ∧
    (∃ l, (VectorIndex.search w9vi tT q1 5).1 = .ok l ∧ l.length = 2 ∧
      (1 : Int) ∈ l ∧ (2 : Int) ∈ l ∧ ∀ x ∈ l, x = 1 ∨ x = 2) ∧
    (∀ l, (VectorIndex.search w9vi tT q1 5).1 = .ok l → ∀ mid ∈ l,
      ∃ fid key, aget w9vi.id_to_key fid = some key ∧
        VectorIndex._parse_key key = some (tT, semanticT, mid)) :=
  c9_search_bound_amended w9vi tT q1 5 0 1 1 2 q1 q1
    (by decide) (by decide) (by decide) (by decide)
    (by with_unfolding_all decide) (by with_unfolding_all decide)
    (by with_unfolding_all decide) (by with_unfolding_all decide)
    (by with_unfolding_all decide)

/-- Claim C10 (confirmed): `add` and `search` L2-normalize the caller's
numpy buffer in place (`reshape(1, -1)` on a contiguous 1-D array is a
view, and `faiss.normalize_L2` mutates it): after the call the
caller's array holds the unit-normalized vector — unit squared norm —
and, whenever the input was not already unit-norm, it differs from the
vector that was passed in.  Stated over inputs whose L2 norm is
exactly representable (`ratSqrt` exactness hypothesis), the exact
counterpart of the float computation. -/
theorem c10_normalize_in_place (vi : VectorIndex) (agent mt : Str) (mem_id : Int)
    (k : Nat) (v q : List ℚ)
    (hv : ratSqrt (sumsq v) ^ 2 = sumsq v) (hv0 : sumsq v ≠ 0) (hv1 : sumsq v ≠ 1)
    (hq : ratSqrt (sumsq q) ^ 2 = sumsq q) (hq0 : sumsq q ≠ 0) (hq1 : sumsq q ≠ 1) :
    (∀ vi2 buf, VectorIndex.add vi agent mt mem_id v = .ok (vi2, buf) →
      buf = normalizeL2 v ∧ sumsq buf = 1 ∧ buf ≠ v) ∧
    (VectorIndex.search vi agent q k).2 = normalizeL2 q ∧
    sumsq (VectorIndex.search vi agent q k).2 = 1 ∧
    (VectorIndex.search vi agent q k).2 ≠ q := by
  have hsearch : (VectorIndex.search vi agent q k).2 = normalizeL2 q := rfl
  refine ⟨?_, hsearch, ?_, ?_⟩
  · intro vi2 buf h
    have hb := add_buffer h
    refine ⟨hb, ?_, ?_⟩
    · rw [hb]
      exact sumsq_normalizeL2 hv hv0
    · rw [hb]
      exact normalizeL2_ne hv hv0 hv1
  · rw [hsearch]
    exact sumsq_normalizeL2 hq hq0
  · rw [hsearch]
    exact normalizeL2_ne hq hq0 hq1

/-- Claim C10 (witness): at the concrete query `[0, 2]` (norm exactly 2)
the caller's buffer comes back unit-normalized and changed. -/
theorem c10_normalize_in_place_witness :
    sumsq (VectorIndex.search (VectorIndex.init 2) tT w10q 5).2 = 1 ∧
    (VectorIndex.search (VectorIndex.init 2) tT w10q 5).2 ≠ w10q := by
  have h := c10_normalize_in_place (VectorIndex.init 2) tT semanticT 1 5 w10v w10q
    (by with_unfolding_all decide) (by with_unfolding_all decide)
    (by with_unfolding_all decide) (by with_unfolding_all decide)
    (by with_unfolding_all decide) (by with_unfolding_all decide)
  exact ⟨h.2.2.1, h.2.2.2⟩

/-- Claim C6 (confirmed): `add_event` performs the durable insert and
returns the fresh id exactly when the default gating policy admits the
event — the trimmed content has at least 5 code points and its
lowercase form is not in the configured stop-list — and otherwise
returns `-1` leaving every component of the state untouched. -/
theorem c6_add_event_gating (ms : ManagerState) (agent : Str) (ev : EpEvent) :
    add_event ms agent ev =
      if 5 ≤ (trimL ev.content).length ∧ toLowerL (trimL ev.content) ∉ stopWords then
        ({ ms with est := ⟨ms.est.nextId + 1,
            ms.est.rows ++ [⟨ms.est.nextId, agent, ev.content, ev.role⟩]⟩ },
         (ms.est.nextId : Int))
      else (ms, -1) := by
  by_cases h5 : (trimL ev.content).length < 5
  · rw [if_neg (fun hc => absurd hc.1 (by omega))]
    simp [add_event, should_store_as_episodic, h5]
  · by_cases hmem : toLowerL (trimL ev.content) ∈ stopWords
    · rw [if_neg (fun hc => hc.2 hmem)]
      simp [add_event, should_store_as_episodic, h5, hmem]
    · rw [if_pos ⟨by omega, hmem⟩]
      simp [add_event, should_store_as_episodic, EpisodicStore.insert, h5, hmem]

end Memoria
